import Mathlib

/-!
Verification of the critical-path scheduling engine (`src/lib/cpm/cpm.ts` and
`src/lib/cpm/types.ts`): `calculateCPM`, `topologicalSort` and
`analyzeResourceAllocation`, shallowly embedded in Lean.

Modelling conventions:
* JavaScript numbers that hold task data (durations, progress, ES/EF/LS/LF,
  float) are modelled as `Int`.  The engine's `+`, `-`, `max`, `min` and
  comparisons act on integer values and are exact in binary64 below `2^53`.
  Two of its expressions are NOT exact: the effective duration
  `Math.ceil(duration * (1 - progress/100))` and the threshold
  `totalDuration > projectDuration * 0.7` evaluate in binary64 and can
  differ from their real-number readings.  The file therefore carries two
  models of the effective duration: `effectiveDuration`, the exact
  idealisation `⌈duration·(100-progress)/100⌉`, used by the claims whose
  truth is insensitive to the rounding (they are either evaluated where the
  two agree, or hold for every integer valuation of the expression — see
  `calculateCPMF`), and `effectiveDurationFP`, the bit-accurate binary64
  evaluation built on `fpRound` (round-to-nearest-even at a 53-bit
  significand over exact fractions); the two diverge, e.g. at duration 10,
  progress 70 (3 exactly, 4 in binary64).  The recommendation threshold is
  modelled bit-accurately by `exceeds70` via the same `fpRound`.
* `Math.max(...xs)` over a possibly-empty collection is modelled as
  `Option Int`: `none` models the JavaScript value `-Infinity` that
  `Math.max()` returns on no arguments.  `projectDuration` therefore has type
  `Option Int` in the result record.
* A JavaScript `Map` is modelled as an insertion-ordered association list:
  `set` overwrites the first (unique) matching key in place, otherwise
  appends; `get` returns the first match.  This is exactly the iteration
  and update behaviour of `Map`.
* `Array.prototype.sort` with the comparator `(a, b) => es(a) - es(b)` is a
  stable ascending sort by `es`; it is modelled by `List.insertionSort`
  with the total preorder `es a ≤ es b`, which is stable in the same way.
-/

/-- JavaScript `Map<string, α>` as an insertion-ordered association list. -/
abbrev JMap (α : Type) := List (String × α)

/-- `m.get(k)`: first (unique) binding of `k`. -/
def jmGet {α : Type} : JMap α → String → Option α
  | [], _ => none
  | (k', v) :: rest, k => if k' = k then some v else jmGet rest k

/-- `jmSet m(k, v)`: overwrite the binding of `k` in place, else append. -/
def jmSet {α : Type} : JMap α → String → α → JMap α
  | [], k, v => [(k, v)]
  | (k', v') :: rest, k, v =>
      if k' = k then (k, v) :: rest else (k', v') :: jmSet rest k v

/-- `CPMInput` from `src/lib/cpm/types.ts`.  `assigneeId`/`assigneeName` are
optional fields (`assigneeId?: string`), modelled as `Option String`. -/
structure CPMInput where
  id : String
  name : String
  duration : Int
  dependencies : List String
  status : String
  progress : Int
  assigneeId : Option String
  assigneeName : Option String
deriving Repr, DecidableEq, Inhabited

/-- `CPMNode` from `src/lib/cpm/types.ts`. -/
structure CPMNode where
  id : String
  name : String
  duration : Int
  dependencies : List String
  es : Int
  ef : Int
  ls : Int
  lf : Int
  float : Int
  isCritical : Bool
  status : String
  progress : Int
  assigneeId : Option String
  assigneeName : Option String
deriving Repr, DecidableEq

/-- `CPMResult` from `src/lib/cpm/types.ts`.  `projectDuration : Option Int`,
where `none` models the JavaScript number `-Infinity` (the value of
`Math.max()` over an empty collection). -/
structure CPMResult where
  nodes : List CPMNode
  criticalPath : List String
  projectDuration : Option Int
deriving Repr, DecidableEq

/-- Exact integer ceiling of `a / 100` (`Int.ediv` is floor division for the
positive divisor `100`, so `-((-a) / 100) = ⌈a / 100⌉`). -/
def ceilDiv100 (a : Int) : Int := -((-a).ediv 100)

/-- The exact-arithmetic idealisation of the effective-duration rule used
identically in both passes of `calculateCPM`:
`node.status === "completed" ? 0 : Math.ceil(node.duration * (1 - node.progress / 100))`.
Over exact arithmetic `duration * (1 - progress/100) = duration * (100 - progress) / 100`,
so the ceiling is `ceilDiv100 (duration * (100 - progress))`.  The source
evaluates the expression in binary64, which can round differently:
`effectiveDurationFP` below is the bit-accurate evaluation, and the two
diverge, e.g. at duration 10, progress 70 (3 here, 4 in binary64).  Claims
stated with `effectiveDuration` are those whose truth is unchanged under
every integer valuation of the expression (see `calculateCPMF`) or that are
evaluated only where the two agree. -/
def effectiveDuration (status : String) (duration progress : Int) : Int :=
  if status = "completed" then 0 else ceilDiv100 (duration * (100 - progress))

/-- Effective duration of a scheduled node's own fields. -/
def nodeEffDur (n : CPMNode) : Int := effectiveDuration n.status n.duration n.progress

/-- An exact fraction `num / den` (`den` positive by construction in every
use below), the carrier for bit-accurate binary64 arithmetic: every finite
double is such a fraction, and IEEE 754 defines each operation as the exact
result rounded to the nearest representable value. -/
structure Frac where
  num : Int
  den : Nat
deriving Repr, DecidableEq

/-- Fuel-bounded `⌊log₂ n⌋` (`0` for `n ≤ 1`).  The fuel used below, 1200,
covers every magnitude the binary64 format can carry (`|exponent| ≤ 1074`);
values beyond `2^1200` are far outside the finite-double range this file
ever evaluates.  Structural recursion keeps it kernel-computable. -/
def log2Nat : Nat → Nat → Nat
  | 0, _ => 0
  | fuel + 1, n => if n ≤ 1 then 0 else log2Nat fuel (n / 2) + 1

/-- Exact product of two fractions. -/
def fracMul (a b : Frac) : Frac := ⟨a.num * b.num, a.den * b.den⟩

/-- Exact difference of two fractions. -/
def fracSub (a b : Frac) : Frac :=
  ⟨a.num * (b.den : Int) - b.num * (a.den : Int), a.den * b.den⟩

/-- Exact comparison `a < b` (positive denominators). -/
def fracLt (a b : Frac) : Bool :=
  decide (a.num * (b.den : Int) < b.num * (a.den : Int))

/-- `⌊a⌋` (positive denominator; `Int.ediv` rounds toward `-∞` here). -/
def fracFloor (a : Frac) : Int := a.num.ediv (a.den : Int)

/-- `⌈a⌉`, the exact `Math.ceil` of a finite double value. -/
def fracCeil (a : Frac) : Int := -((-a.num).ediv (a.den : Int))

/-- Exact `a · 2^j` for a signed exponent `j`. -/
def fracMulPow2 (a : Frac) (j : Int) : Frac :=
  if 0 ≤ j then ⟨a.num * 2 ^ j.toNat, a.den⟩ else ⟨a.num, a.den * 2 ^ (-j).toNat⟩

/-- Exact comparison `a < 2^k` for a signed exponent `k`. -/
def fracLtPow2 (a : Frac) (k : Int) : Bool :=
  if 0 ≤ k then decide (a.num < 2 ^ k.toNat * (a.den : Int))
  else decide (a.num * 2 ^ (-k).toNat < (a.den : Int))

/-- `⌊log₂ a⌋` of a positive fraction: the numerator/denominator bit-length
difference is off by at most one, fixed by one exact comparison. -/
def qlog2 (a : Frac) : Int :=
  let k : Int := (log2Nat 1200 a.num.toNat : Int) - (log2Nat 1200 a.den : Int)
  if fracLtPow2 a k then k - 1 else k

/-- Round a fraction to the nearest integer, ties to even (the IEEE 754
default rounding direction). -/
def roundNearestEven (y : Frac) : Int :=
  let f : Int := fracFloor y
  let t : Int := 2 * (y.num - f * (y.den : Int))
  if t < (y.den : Int) then f
  else if (y.den : Int) < t then f + 1
  else if f % 2 = 0 then f else f + 1

/-- The exact value of the binary64 double nearest to `x`: the significand
grid has spacing `2^(⌊log₂ |x|⌋ - 52)`, floored at `2^(-1074)` for
subnormals, and `x` is rounded to it nearest-ties-to-even.  Binary64
overflow (`|x| ≥ 2^1024`, giving `Infinity`) lies outside every value the
modelled engine computes and is not represented. -/
def fpRound (x : Frac) : Frac :=
  if x.num = 0 then ⟨0, 1⟩
  else
    let a : Frac := ⟨|x.num|, x.den⟩
    let g : Int := max (qlog2 a - 52) (-1074)
    let m : Int := roundNearestEven (fracMulPow2 a (-g))
    let v : Frac := fracMulPow2 ⟨m, 1⟩ g
    if x.num < 0 then ⟨-v.num, v.den⟩ else v

/-- Bit-accurate binary64 evaluation of the source's effective-duration
expression `Math.ceil(node.duration * (1 - node.progress / 100))`: the
division, the subtraction and the multiplication each round their exact
result to the nearest double (integer operands of the data model are
themselves exact doubles below `2^53`), and `Math.ceil` is exact on
doubles.  Diverges from the exact `effectiveDuration`, e.g. at duration 10,
progress 70: `1 - 0.7` is `0.30000000000000004`, so the product is
`3.0000000000000004` and its ceiling 4, not 3. -/
def effectiveDurationFP (status : String) (duration progress : Int) : Int :=
  if status = "completed" then 0
  else fracCeil (fpRound (fracMul ⟨duration, 1⟩
    (fpRound (fracSub ⟨1, 1⟩ (fpRound ⟨progress, 100⟩)))))

/-- `Math.max(...xs)` on a list: `none` models `-Infinity` (empty input). -/
def jsMaxList : List Int → Option Int
  | [] => none
  | a :: rest => some (rest.foldl max a)

/-- `Math.min(...xs)` on a list: `none` models `Infinity` (empty input). -/
def jsMinList : List Int → Option Int
  | [] => none
  | a :: rest => some (rest.foldl min a)

/-- `taskMap`: `tasks.forEach((t) => taskMap.set(t.id, t))`. -/
def buildTaskMap (tasks : List CPMInput) : JMap CPMInput :=
  tasks.foldl (fun m t => jmSet m t.id t) []

/-- `predecessors`: `tasks.forEach((t) => predecessors.set(t.id, [...t.dependencies]))`. -/
def buildPredecessors (tasks : List CPMInput) : JMap (List String) :=
  tasks.foldl (fun m t => jmSet m t.id t.dependencies) []

/-- Second phase of building `successors`: for every task `t` and every
`depId` of `t`, `successors.get(depId)?.push(t.id)` (no effect when `depId`
is not a key). -/
def addSuccEdges (m : JMap (List String)) (t : CPMInput) : JMap (List String) :=
  t.dependencies.foldl
    (fun m depId =>
      match jmGet m depId with
      | some succs => jmSet m depId (succs ++ [t.id])
      | none => m) m

/-- `successors`: every task id is seeded with `[]`, then every dependency
edge is inverted. -/
def buildSuccessors (tasks : List CPMInput) : JMap (List String) :=
  tasks.foldl addSuccEdges
    (tasks.foldl (fun m t => jmSet m t.id ([] : List String)) [])

/-- `inDegree`: `inDegree.set(t.id, (predecessors.get(t.id) || []).length)`. -/
def buildInDegree (tasks : List CPMInput) (preds : JMap (List String)) : JMap Nat :=
  tasks.foldl (fun m t => jmSet m t.id ((jmGet preds t.id).getD []).length) []

/-- One decrement step of Kahn's algorithm:
`const newDeg = (inDegree.get(succId) || 1) - 1; inDegree.set(succId, newDeg); if (newDeg === 0) queue.push(succId);`.
Note the JavaScript `||` also replaces a stored `0` by `1` (`0` is falsy);
in particular the stored degree can never become negative, so `Nat` is an
exact model of the reachable values. -/
def processSucc (st : JMap Nat × List String) (succId : String) : JMap Nat × List String :=
  let deg := st.1
  let queue := st.2
  let cur : Nat :=
    match jmGet deg succId with
    | none => 1
    | some v => if v = 0 then 1 else v
  let newDeg := cur - 1
  (jmSet deg succId newDeg, if newDeg = 0 then queue ++ [succId] else queue)

/-- The `while (queue.length > 0)` loop of `topologicalSort`, with explicit
fuel.  Each iteration performs one `queue.shift()`; with unique task ids
every id enters the queue at most once, so at most `|tasks|` iterations run
and the fuel `2 * |tasks| + 2` supplied below is never exhausted on inputs
of the data model. -/
def kahnLoop (succ : JMap (List String)) :
    Nat → List String → JMap Nat → List String → List String
  | 0, _, _, sorted => sorted
  | _ + 1, [], _, sorted => sorted
  | fuel + 1, id :: queue, deg, sorted =>
      let st := ((jmGet succ id).getD []).foldl processSucc (deg, queue)
      kahnLoop succ fuel st.2 st.1 (sorted ++ [id])

/-- `topologicalSort` (Kahn's algorithm) from `src/lib/cpm/cpm.ts`.  The
initial queue is seeded with the zero-in-degree ids in `inDegree` iteration
(= task input) order. -/
def topologicalSort (tasks : List CPMInput) (preds succ : JMap (List String)) :
    List String :=
  let inDegree := buildInDegree tasks preds
  let queue := (inDegree.filter (fun p => p.2 = 0)).map (fun p => p.1)
  kahnLoop succ (2 * tasks.length + 2) queue inDegree []

/-- Fresh schedule node for one task: the task's fields plus
`es = ef = ls = lf = float = 0`, `isCritical = false`. -/
def initRec (task : CPMInput) : CPMNode :=
  { id := task.id, name := task.name, duration := task.duration,
    dependencies := task.dependencies, es := 0, ef := 0, ls := 0,
    lf := 0, float := 0, isCritical := false, status := task.status,
    progress := task.progress, assigneeId := task.assigneeId,
    assigneeName := task.assigneeName }

/-- Initialisation of the `nodes` map.  The source reads `taskMap.get(id)!`;
the `none` branch is unreachable because every sorted id is a task id. -/
def initNodes (taskMap : JMap CPMInput) (sorted : List String) : JMap CPMNode :=
  sorted.foldl
    (fun m id =>
      match jmGet taskMap id with
      | some task => jmSet m id (initRec task)
      | none => m) []

/-- The `es` computed by one step of the forward pass: 0 for no
predecessors, else `Math.max(...preds.map((pId) => nodes.get(pId)?.ef ?? 0))`. -/
def fwdES (preds : JMap (List String)) (nodes : JMap CPMNode) (id : String) : Int :=
  let ps := (jmGet preds id).getD []
  if ps = [] then 0
  else (jsMaxList (ps.map (fun pId =>
    match jmGet nodes pId with
    | some n => n.ef
    | none => 0))).getD 0

/-- One step of the forward pass: set `es` and `ef = es + effectiveDuration`.
The `none` branch models `nodes.get(id)!` and is unreachable. -/
def forwardStep (preds : JMap (List String)) (nodes : JMap CPMNode) (id : String) :
    JMap CPMNode :=
  match jmGet nodes id with
  | none => nodes
  | some node =>
      jmSet nodes id
        { node with es := fwdES preds nodes id,
                    ef := fwdES preds nodes id + nodeEffDur node }

/-- The `lf` computed by one step of the backward pass: `projectDuration`
for no successors, else
`Math.min(...succs.map((sId) => nodes.get(sId)?.ls ?? projectDuration))`. -/
def bwdLF (succ : JMap (List String)) (pd : Int) (nodes : JMap CPMNode)
    (id : String) : Int :=
  let ss := (jmGet succ id).getD []
  if ss = [] then pd
  else (jsMinList (ss.map (fun sId =>
    match jmGet nodes sId with
    | some n => n.ls
    | none => pd))).getD pd

/-- One step of the backward pass: set `lf` and `ls = lf - effectiveDuration`. -/
def backwardStep (succ : JMap (List String)) (pd : Int) (nodes : JMap CPMNode)
    (id : String) : JMap CPMNode :=
  match jmGet nodes id with
  | none => nodes
  | some node =>
      jmSet nodes id
        { node with lf := bwdLF succ pd nodes id,
                    ls := bwdLF succ pd nodes id - nodeEffDur node }

/-- `node.float = node.ls - node.es; node.isCritical = node.float === 0`. -/
def setFloat (n : CPMNode) : CPMNode :=
  { n with float := n.ls - n.es, isCritical := decide (n.ls - n.es = 0) }

/-- Lookup of `nodes.get(a)?.es ?? 0` used by the critical-path comparator. -/
def esKey (nodes : JMap CPMNode) (id : String) : Int :=
  match jmGet nodes id with
  | some n => n.es
  | none => 0

/-- `calculateCPM` from `src/lib/cpm/cpm.ts`.  The final `nodes` array is
`sorted.map((id) => nodes.get(id)!)`, modelled with `filterMap` (every
sorted id is a key, so nothing is dropped).  The backward pass runs once per
scheduled node; when no node is scheduled `projectDuration` is `none`
(JavaScript `-Infinity`) and the backward pass is a no-op, so the `getD 0`
default passed to it is never read. -/
def calculateCPM (tasks : List CPMInput) : CPMResult :=
  if tasks = [] then { nodes := [], criticalPath := [], projectDuration := some 0 }
  else
    let taskMap := buildTaskMap tasks
    let succ := buildSuccessors tasks
    let preds := buildPredecessors tasks
    let sorted := topologicalSort tasks preds succ
    let nodes0 := initNodes taskMap sorted
    let nodes1 := sorted.foldl (forwardStep preds) nodes0
    let projectDuration := jsMaxList (nodes1.map (fun p => p.2.ef))
    let nodes2 := sorted.reverse.foldl (backwardStep succ (projectDuration.getD 0)) nodes1
    let nodes3 := nodes2.map (fun p => (p.1, setFloat p.2))
    let criticalIds := (nodes3.filter (fun p => p.2.isCritical)).map (fun p => p.1)
    let criticalPath :=
      List.insertionSort (fun a b => esKey nodes3 a ≤ esKey nodes3 b) criticalIds
    { nodes := sorted.filterMap (fun id => jmGet nodes3 id),
      criticalPath := criticalPath,
      projectDuration := projectDuration }

/-- `forwardStep` with the effective-duration expression abstracted: the
source computes one per-node value `node.status === "completed" ? 0 :
Math.ceil(node.duration * (1 - node.progress / 100))` and both passes use
it identically, whatever arithmetic realises it — `f` ranges over such
valuations (`effectiveDuration` is the exact one, `effectiveDurationFP` the
binary64 one). -/
def forwardStepF (f : String → Int → Int → Int) (preds : JMap (List String))
    (nodes : JMap CPMNode) (id : String) : JMap CPMNode :=
  match jmGet nodes id with
  | none => nodes
  | some node =>
      jmSet nodes id
        { node with
            es := fwdES preds nodes id,
            ef := fwdES preds nodes id + f node.status node.duration node.progress }

/-- `backwardStep` with the effective-duration expression abstracted. -/
def backwardStepF (f : String → Int → Int → Int) (succ : JMap (List String))
    (pd : Int) (nodes : JMap CPMNode) (id : String) : JMap CPMNode :=
  match jmGet nodes id with
  | none => nodes
  | some node =>
      jmSet nodes id
        { node with
            lf := bwdLF succ pd nodes id,
            ls := bwdLF succ pd nodes id - f node.status node.duration node.progress }

/-- `calculateCPM` with the effective-duration expression abstracted.
`calculateCPMF effectiveDuration` is definitionally the file's
`calculateCPM`, and `calculateCPMF effectiveDurationFP` is the program
under bit-accurate binary64 arithmetic. -/
def calculateCPMF (f : String → Int → Int → Int) (tasks : List CPMInput) :
    CPMResult :=
  if tasks = [] then { nodes := [], criticalPath := [], projectDuration := some 0 }
  else
    let taskMap := buildTaskMap tasks
    let succ := buildSuccessors tasks
    let preds := buildPredecessors tasks
    let sorted := topologicalSort tasks preds succ
    let nodes0 := initNodes taskMap sorted
    let nodes1 := sorted.foldl (forwardStepF f preds) nodes0
    let projectDuration := jsMaxList (nodes1.map (fun p => p.2.ef))
    let nodes2 := sorted.reverse.foldl
      (backwardStepF f succ (projectDuration.getD 0)) nodes1
    let nodes3 := nodes2.map (fun p => (p.1, setFloat p.2))
    let criticalIds := (nodes3.filter (fun p => p.2.isCritical)).map (fun p => p.1)
    let criticalPath :=
      List.insertionSort (fun a b => esKey nodes3 a ≤ esKey nodes3 b) criticalIds
    { nodes := sorted.filterMap (fun id => jmGet nodes3 id),
      criticalPath := criticalPath,
      projectDuration := projectDuration }

/-- Per-assignee accumulator record of `analyzeResourceAllocation`
(`{ name, tasks, criticalTasks, totalDuration }`). -/
structure DevLoad where
  name : String
  tasks : Nat
  criticalTasks : Nat
  totalDuration : Int
deriving Repr, DecidableEq

/-- One entry of the returned `developerLoad` array (`{ developerId, ...load }`). -/
structure ResourceLoad where
  developerId : String
  name : String
  tasks : Nat
  criticalTasks : Nat
  totalDuration : Int
deriving Repr, DecidableEq

/-- Result object of `analyzeResourceAllocation`. -/
structure ResourceAnalysis where
  developerLoad : List ResourceLoad
  recommendations : List String
deriving Repr, DecidableEq

/-- JavaScript truthiness of `node.assigneeId`: `undefined` and `""` are
falsy, every other string is truthy. -/
def jsTruthyStr : Option String → Bool
  | none => false
  | some s => !(s == "")

/-- `node.assigneeName || "Unknown"`: the name defaults to `"Unknown"` when
absent or empty (falsy). -/
def nameOrUnknown : Option String → String
  | none => "Unknown"
  | some s => if s = "" then "Unknown" else s

/-- One step of the `result.nodes.forEach` aggregation: skip nodes whose
`assigneeId` is falsy (`if (!node.assigneeId) return`), otherwise update the
assignee's accumulated load. -/
def analyzeStep (m : JMap DevLoad) (node : CPMNode) : JMap DevLoad :=
  match node.assigneeId with
  | none => m
  | some aid =>
      if aid = "" then m
      else
        let existing := (jmGet m aid).getD
          { name := nameOrUnknown node.assigneeName, tasks := 0,
            criticalTasks := 0, totalDuration := 0 }
        jmSet m aid
          { existing with
            tasks := existing.tasks + 1,
            criticalTasks := existing.criticalTasks + (if node.isCritical then 1 else 0),
            totalDuration := existing.totalDuration + node.duration }

/-- The load update applied for one node to one assignee's accumulated
entry (`none` when the assignee was not seen yet). -/
def devUpd (acc : Option DevLoad) (n : CPMNode) : DevLoad :=
  let existing := acc.getD
    { name := nameOrUnknown n.assigneeName, tasks := 0,
      criticalTasks := 0, totalDuration := 0 }
  { existing with
    tasks := existing.tasks + 1,
    criticalTasks := existing.criticalTasks + (if n.isCritical then 1 else 0),
    totalDuration := existing.totalDuration + n.duration }

/-- The first recommendation string:
`` `${load.name} (${devId}) has ${load.criticalTasks} critical tasks. Consider redistributing to reduce risk.` ``. -/
def recMsg1 (devId : String) (load : DevLoad) : String :=
  load.name ++ " (" ++ devId ++ ") has " ++ toString load.criticalTasks ++
    " critical tasks. Consider redistributing to reduce risk."

/-- The second recommendation string:
`` `${load.name} is assigned ${load.totalDuration} days of work across ${load.tasks} tasks. This exceeds 70% of the project timeline.` ``. -/
def recMsg2 (load : DevLoad) : String :=
  load.name ++ " is assigned " ++ toString load.totalDuration ++
    " days of work across " ++ toString load.tasks ++
    " tasks. This exceeds 70% of the project timeline."

/-- Bit-accurate binary64 model of
`load.totalDuration > result.projectDuration * 0.7`: the literal `0.7` is
the double nearest `7/10`, the product rounds its exact result to the
nearest double, and the comparison is exact on the operands' values (the
integer-valued operands of the data model are exact doubles below `2^53`).
Diverges from the exact 70% test: at `projectDuration = 90` the product is
`62.99999999999999`, so `totalDuration = 63` fires although `10·63 > 7·90`
is false.  When `projectDuration` is `none` (`-Infinity`), the product is
`-Infinity` and the comparison is true for every finite total. -/
def exceeds70 (totalDuration : Int) (pd : Option Int) : Bool :=
  match pd with
  | none => true
  | some v => fracLt (fpRound (fracMul ⟨v, 1⟩ (fpRound ⟨7, 10⟩))) ⟨totalDuration, 1⟩

/-- Recommendations for one assignee: the two threshold rules are
independent and may both fire, in this order. -/
def recsFor (pd : Option Int) (devId : String) (load : DevLoad) : List String :=
  (if 3 ≤ load.criticalTasks then [recMsg1 devId load] else []) ++
    (if exceeds70 load.totalDuration pd then [recMsg2 load] else [])

/-- `analyzeResourceAllocation` from `src/lib/cpm/cpm.ts`. -/
def analyzeResourceAllocation (result : CPMResult) : ResourceAnalysis :=
  let load := result.nodes.foldl analyzeStep []
  let recommendations :=
    load.foldl (fun acc p => acc ++ recsFor result.projectDuration p.1 p.2) []
  { developerLoad := load.map (fun p =>
      { developerId := p.1, name := p.2.name, tasks := p.2.tasks,
        criticalTasks := p.2.criticalTasks, totalDuration := p.2.totalDuration }),
    recommendations := recommendations }

/-- Lookup of a node's `es` in a result's node list (first node whose id
matches; `0` when absent), used to state ordering claims about
`criticalPath`. -/
def esOf (r : CPMResult) (id : String) : Int :=
  match r.nodes.find? (fun n => n.id == id) with
  | some n => n.es
  | none => 0

/-- Comparison on `Option Int` where `none` is `-Infinity`. -/
def optIntLE : Option Int → Option Int → Prop
  | none, _ => True
  | some a, some b => a ≤ b
  | some _, none => False

instance instDecOptIntLE (x y : Option Int) : Decidable (optIntLE x y) := by
  cases x <;> cases y <;> simp only [optIntLE] <;> infer_instance

/-- Convenience constructor for test tasks with no assignee. -/
def mkTask (id : String) (dur : Int) (deps : List String) (status : String)
    (prog : Int) : CPMInput :=
  { id := id, name := id, duration := dur, dependencies := deps, status := status,
    progress := prog, assigneeId := none, assigneeName := none }

/-- Convenience constructor for schedule nodes used to probe the analyzer. -/
def mkNode (id : String) (dur : Int) (crit : Bool) (aid : Option String)
    (aname : Option String) : CPMNode :=
  { id := id, name := id, duration := dur, dependencies := [], es := 0, ef := 0,
    ls := 0, lf := 0, float := 0, isCritical := crit, status := "not_started",
    progress := 0, assigneeId := aid, assigneeName := aname }

/-- Two tasks forming a 2-cycle: every task lies on a dependency cycle, so
nothing can be scheduled. -/
def exCycleOnly : List CPMInput :=
  [mkTask "A" 2 ["B"] "not_started" 0, mkTask "B" 3 ["A"] "not_started" 0]

/-- The spec's second concrete scenario: `B` is `completed` with stale
`progress = 40`. -/
def exCompletedB : List CPMInput :=
  [mkTask "A" 2 [] "not_started" 0,
   mkTask "B" 3 ["A"] "completed" 40,
   mkTask "C" 1 ["A"] "not_started" 0]

/-- Two zero-duration tasks listed in reverse dependency order: both end up
critical with equal `ES = 0`, so the critical-path tie-break is observable. -/
def exTie : List CPMInput :=
  [mkTask "b" 0 ["a"] "not_started" 0, mkTask "a" 0 [] "not_started" 0]

/-- A task whose dependency id `"ghost"` refers to no task in the input. -/
def exDangling : List CPMInput :=
  [mkTask "A" 2 [] "not_started" 0, mkTask "B" 3 ["ghost"] "not_started" 0]

/-- The same input with the dangling dependency removed. -/
def exDanglingRemoved : List CPMInput :=
  [mkTask "A" 2 [] "not_started" 0, mkTask "B" 3 [] "not_started" 0]

/-- A 2-node dependency cycle (`A` depends on `B`, `B` depends on `A`)
followed by three unrelated, dependency-free tasks, with every task field
other than ids and dependencies left arbitrary. -/
def cycleWithThree (dA dB d1 d2 d3 pA pB p1 p2 p3 : Int)
    (sA sB s1 s2 s3 : String) : List CPMInput :=
  [mkTask "A" dA ["B"] sA pA, mkTask "B" dB ["A"] sB pB,
   mkTask "T1" d1 [] s1 p1, mkTask "T2" d2 [] s2 p2, mkTask "T3" d3 [] s3 p3]

/-- A schedule with three critical tasks assigned to the same developer, and
one node whose `assigneeId` is the empty string. -/
def exThreeCritical : CPMResult :=
  { nodes := [mkNode "x" 1 true (some "d1") (some "Alice"),
              mkNode "y" 2 true (some "d1") (some "Alice"),
              mkNode "z" 3 true (some "d1") (some "Alice"),
              mkNode "w" 9 false (some "") (some "Ghost")],
    criticalPath := [], projectDuration := some 100 }

/-- The node the binary64 program computes for a single `in_progress` task
of duration 10 and progress 70: the rounded product makes the effective
duration 4 (`ef = 4`), not the exact `⌈10·30/100⌉ = 3`. -/
def exNodeP : CPMNode :=
  { id := "P", name := "P", duration := 10, dependencies := [], es := 0,
    ef := 4, ls := 0, lf := 4, float := 0, isCritical := true,
    status := "in_progress", progress := 70, assigneeId := none,
    assigneeName := none }

/-- Definition following the spec's words for the critical-path order (for
comparison with the implementation): ids of nodes with `isCritical == true`
taken in ORIGINAL INPUT order, stably sorted ascending by `ES` — i.e.
ascending by `ES` with ties broken by input order. -/
def criticalPathSpecOrder (tasks : List CPMInput) : List String :=
  let r := calculateCPM tasks
  List.insertionSort (fun a b => esOf r a ≤ esOf r b)
    ((tasks.filter (fun t =>
        ((r.nodes.find? (fun n => n.id == t.id)).map (fun n => n.isCritical)).getD false)).map
      (fun t => t.id))

/-- The list of task ids of an input, in input order. -/
def idsOf (tasks : List CPMInput) : List String := tasks.map (fun t => t.id)

/-- Canonical dependency list of the (unique, under the data model) task with
a given id; `[]` for an unknown id. -/
def depsOfId (tasks : List CPMInput) (x : String) : List String :=
  ((tasks.find? (fun t => t.id == x)).map (fun t => t.dependencies)).getD []

/-- Remaining in-degree of a task relative to a set `acc` of already
scheduled ids: the number of its dependencies that are not yet scheduled
task ids (a dependency pointing outside the task set never counts as
satisfied). -/
def remDeg (tasks : List CPMInput) (acc : List String) (t : CPMInput) : Nat :=
  t.dependencies.countP (fun d => !(decide (d ∈ idsOf tasks) && decide (d ∈ acc)))

/-- Canonical successor list of an id: the ids of the tasks that depend on
it, in input order. -/
def succsOfId (tasks : List CPMInput) (p : String) : List String :=
  (tasks.filter (fun t => decide (p ∈ t.dependencies))).map (fun t => t.id)

/-- Structural correctness of a topological order produced by the sorter:
no duplicates, only task ids, and every dependency of a listed id is a task
id that occurs strictly earlier. -/
def SortedOK (tasks : List CPMInput) (sorted : List String) : Prop :=
  sorted.Nodup ∧ (∀ x ∈ sorted, x ∈ idsOf tasks) ∧
    ∀ l₁ x l₂, sorted = l₁ ++ x :: l₂ →
      ∀ d ∈ depsOfId tasks x, d ∈ idsOf tasks ∧ d ∈ l₁

/-- The (unique, under the data model) task with a given id. -/
def taskOf (tasks : List CPMInput) (x : String) : CPMInput :=
  (tasks.find? (fun t => t.id == x)).getD default

/-- The topological order computed inside `calculateCPM`. -/
def cpmSorted (tasks : List CPMInput) : List String :=
  topologicalSort tasks (buildPredecessors tasks) (buildSuccessors tasks)

/-- The `nodes` map right after initialisation inside `calculateCPM`. -/
def cpmNodes0 (tasks : List CPMInput) : JMap CPMNode :=
  initNodes (buildTaskMap tasks) (cpmSorted tasks)

/-- The `nodes` map after the forward pass inside `calculateCPM`. -/
def cpmNodes1 (tasks : List CPMInput) : JMap CPMNode :=
  (cpmSorted tasks).foldl (forwardStep (buildPredecessors tasks)) (cpmNodes0 tasks)

/-- The `projectDuration` computed inside `calculateCPM` (`none` models
`-Infinity`). -/
def cpmPD (tasks : List CPMInput) : Option Int :=
  jsMaxList ((cpmNodes1 tasks).map (fun p => p.2.ef))

/-- The `nodes` map after the backward pass inside `calculateCPM`. -/
def cpmNodes2 (tasks : List CPMInput) : JMap CPMNode :=
  (cpmSorted tasks).reverse.foldl
    (backwardStep (buildSuccessors tasks) ((cpmPD tasks).getD 0)) (cpmNodes1 tasks)

/-- The `nodes` map after the float/criticality pass inside `calculateCPM`. -/
def cpmNodes3 (tasks : List CPMInput) : JMap CPMNode :=
  (cpmNodes2 tasks).map (fun p => (p.1, setFloat p.2))

/-- The `nodes` map after the forward pass inside `calculateCPMF f`. -/
def cpmNodes1F (f : String → Int → Int → Int) (tasks : List CPMInput) :
    JMap CPMNode :=
  (cpmSorted tasks).foldl (forwardStepF f (buildPredecessors tasks))
    (cpmNodes0 tasks)

/-- The `projectDuration` computed inside `calculateCPMF f`. -/
def cpmPDF (f : String → Int → Int → Int) (tasks : List CPMInput) : Option Int :=
  jsMaxList ((cpmNodes1F f tasks).map (fun p => p.2.ef))

/-- The `nodes` map after the backward pass inside `calculateCPMF f`. -/
def cpmNodes2F (f : String → Int → Int → Int) (tasks : List CPMInput) :
    JMap CPMNode :=
  (cpmSorted tasks).reverse.foldl
    (backwardStepF f (buildSuccessors tasks) ((cpmPDF f tasks).getD 0))
    (cpmNodes1F f tasks)

/-- The `nodes` map after the float/criticality pass inside `calculateCPMF f`. -/
def cpmNodes3F (f : String → Int → Int → Int) (tasks : List CPMInput) :
    JMap CPMNode :=
  (cpmNodes2F f tasks).map (fun p => (p.1, setFloat p.2))

/-- Loop invariant of Kahn's algorithm (`kahnLoop`) on inputs of the data
model: `acc` is the already-emitted prefix of the topological order, `queue`
the pending zero-degree ids, `deg` the current remaining in-degrees. -/
structure KahnInv (tasks : List CPMInput) (queue : List String) (deg : JMap Nat)
    (acc : List String) : Prop where
  accNodup : acc.Nodup
  queueNodup : queue.Nodup
  disj : ∀ x ∈ acc, x ∉ queue
  accSub : ∀ x ∈ acc, x ∈ idsOf tasks
  queueSub : ∀ x ∈ queue, x ∈ idsOf tasks
  queueReady : ∀ x ∈ queue, ∀ d ∈ depsOfId tasks x, d ∈ idsOf tasks ∧ d ∈ acc
  accOrder : ∀ l₁ x l₂, acc = l₁ ++ x :: l₂ →
      ∀ d ∈ depsOfId tasks x, d ∈ idsOf tasks ∧ d ∈ l₁
  degVal : ∀ t ∈ tasks, jmGet deg t.id = some (remDeg tasks acc t)

theorem jmGet_set_self {α : Type} (m : JMap α) (k : String) (v : α) :
    jmGet (jmSet m k v) k = some v := by
  induction m with
  | nil => simp [jmGet, jmSet]
  | cons p rest ih =>
      by_cases h : p.1 = k
      · simp [jmSet, h, jmGet]
      · simp [jmSet, h, jmGet, ih]

theorem jmGet_set_ne {α : Type} (m : JMap α) (k k' : String) (v : α) (h : k ≠ k') :
    jmGet (jmSet m k v) k' = jmGet m k' := by
  induction m with
  | nil => simp [jmGet, jmSet, h]
  | cons p rest ih =>
      by_cases hp : p.1 = k
      · simp [jmSet, hp, jmGet, h]
      · simp [jmSet, hp, jmGet, ih]

theorem jmSet_append_of_not_mem {α : Type} (m : JMap α) (k : String) (v : α)
    (h : k ∉ m.map Prod.fst) : jmSet m k v = m ++ [(k, v)] := by
  induction m with
  | nil => simp [jmSet]
  | cons p rest ih =>
      simp only [List.map_cons, List.mem_cons] at h
      push_neg at h
      simp [jmSet, Ne.symm h.1, ih h.2]

theorem jmGet_append_left {α : Type} (m m' : JMap α) (k : String)
    (h : (jmGet m k).isSome) : jmGet (m ++ m') k = jmGet m k := by
  induction m with
  | nil => simp [jmGet] at h
  | cons p rest ih =>
      by_cases hp : p.1 = k
      · simp [jmGet, hp]
      · simp only [List.cons_append, jmGet, if_neg hp] at h ⊢
        exact ih h

theorem jmGet_append_right {α : Type} (m m' : JMap α) (k : String)
    (h : jmGet m k = none) : jmGet (m ++ m') k = jmGet m' k := by
  induction m with
  | nil => simp [jmGet]
  | cons p rest ih =>
      by_cases hp : p.1 = k
      · simp [jmGet, hp] at h
      · simp only [List.cons_append, jmGet, if_neg hp] at h ⊢
        exact ih h

theorem jmGet_eq_none_of_not_mem {α : Type} (m : JMap α) (k : String)
    (h : k ∉ m.map Prod.fst) : jmGet m k = none := by
  induction m with
  | nil => simp [jmGet]
  | cons p rest ih =>
      simp only [List.map_cons, List.mem_cons] at h
      push_neg at h
      simp [jmGet, Ne.symm h.1 , ih h.2]

theorem jmGet_isSome_of_mem {α : Type} (m : JMap α) (k : String)
    (h : k ∈ m.map Prod.fst) : (jmGet m k).isSome := by
  induction m with
  | nil => simp at h
  | cons p rest ih =>
      by_cases hp : p.1 = k
      · simp [jmGet, hp]
      · simp only [List.map_cons, List.mem_cons] at h
        rcases h with h | h
        · exact absurd h.symm hp
        · simp only [jmGet, if_neg hp]
          exact ih h

theorem jmGet_mem {α : Type} (m : JMap α) (k : String) (v : α)
    (h : jmGet m k = some v) : (k, v) ∈ m := by
  induction m with
  | nil => simp [jmGet] at h
  | cons p rest ih =>
      by_cases hp : p.1 = k
      · simp only [jmGet, if_pos hp] at h
        have h2 : p.2 = v := Option.some.inj h
        have h3 : (k, v) = p := by rw [← hp, ← h2]
        rw [h3]
        exact List.mem_cons_self _ _
      · simp only [jmGet, if_neg hp] at h
        exact List.mem_cons_of_mem _ (ih h)

theorem jmGet_mapPair {α : Type} {β : Type} (l : List β) (key : β → String)
    (val : β → α) (k : String) :
    jmGet (l.map (fun b => (key b, val b))) k =
      (l.find? (fun b => key b == k)).map val := by
  induction l with
  | nil => simp [jmGet]
  | cons b rest ih =>
      by_cases h : key b = k
      · simp [jmGet, h, List.find?]
      · simp only [List.map_cons, jmGet, if_neg h, List.find?_cons]
        rw [ih]
        have : (key b == k) = false := by simp [h]
        simp [this]

theorem foldl_set_fresh {α : Type} {β : Type} (l : List β) (key : β → String)
    (val : β → α) :
    ∀ (acc : JMap α), (l.map key).Nodup → (∀ b ∈ l, key b ∉ acc.map Prod.fst) →
      l.foldl (fun m b => jmSet m (key b) (val b)) acc =
        acc ++ l.map (fun b => (key b, val b)) := by
  induction l with
  | nil => intro acc _ _; simp
  | cons b rest ih =>
      intro acc hnd hfresh
      simp only [List.map_cons, List.nodup_cons] at hnd
      have hb : key b ∉ acc.map Prod.fst := hfresh b (List.mem_cons_self _ _)
      have hstep : jmSet acc (key b) (val b) = acc ++ [(key b, val b)] :=
        jmSet_append_of_not_mem _ _ _ hb
      simp only [List.foldl_cons, hstep]
      rw [ih (acc ++ [(key b, val b)]) hnd.2]
      · simp
      · intro c hc
        simp only [List.map_append, List.mem_append, List.map_cons]
        push_neg
        refine ⟨hfresh c (List.mem_cons_of_mem _ hc), ?_⟩
        simp only [List.map_nil, List.mem_singleton]
        intro heq
        exact hnd.1 (heq ▸ List.mem_map_of_mem key hc)

theorem buildTaskMap_eq (tasks : List CPMInput) (h : (idsOf tasks).Nodup) :
    buildTaskMap tasks = tasks.map (fun t => (t.id, t)) := by
  have := foldl_set_fresh tasks (fun t => t.id) (fun t => t) [] h (by simp)
  simpa [buildTaskMap] using this

theorem buildPredecessors_eq (tasks : List CPMInput) (h : (idsOf tasks).Nodup) :
    buildPredecessors tasks = tasks.map (fun t => (t.id, t.dependencies)) := by
  have := foldl_set_fresh tasks (fun t => t.id) (fun t => t.dependencies) [] h (by simp)
  simpa [buildPredecessors] using this

theorem buildInDegree_eq (tasks : List CPMInput) (preds : JMap (List String))
    (h : (idsOf tasks).Nodup) :
    buildInDegree tasks preds =
      tasks.map (fun t => (t.id, ((jmGet preds t.id).getD []).length)) := by
  have := foldl_set_fresh tasks (fun t => t.id)
    (fun t => ((jmGet preds t.id).getD []).length) [] h (by simp)
  simpa [buildInDegree] using this

theorem le_foldl_max (l : List Int) : ∀ a : Int, a ≤ l.foldl max a := by
  induction l with
  | nil => intro a; simp
  | cons x rest ih =>
      intro a
      simp only [List.foldl_cons]
      exact le_trans (le_max_left a x) (ih (max a x))

theorem mem_le_foldl_max (l : List Int) :
    ∀ (a x : Int), x ∈ l → x ≤ l.foldl max a := by
  induction l with
  | nil => intro a x hx; simp at hx
  | cons y rest ih =>
      intro a x hx
      simp only [List.foldl_cons]
      rcases List.mem_cons.mp hx with h | h
      · subst h
        exact le_trans (le_max_right a x) (le_foldl_max rest (max a x))
      · exact ih (max a y) x h

theorem jsMaxList_ge_mem (l : List Int) (x : Int) (hx : x ∈ l) (c : Int) :
    x ≤ (jsMaxList l).getD c := by
  cases l with
  | nil => simp at hx
  | cons a rest =>
      simp only [jsMaxList, Option.getD_some]
      rcases List.mem_cons.mp hx with h | h
      · exact h ▸ le_foldl_max rest a
      · exact mem_le_foldl_max rest a x h

theorem foldl_min_le (l : List Int) : ∀ a : Int, l.foldl min a ≤ a := by
  induction l with
  | nil => intro a; simp
  | cons x rest ih =>
      intro a
      simp only [List.foldl_cons]
      exact le_trans (ih (min a x)) (min_le_left a x)

theorem foldl_min_le_mem (l : List Int) :
    ∀ (a x : Int), x ∈ l → l.foldl min a ≤ x := by
  induction l with
  | nil => intro a x hx; simp at hx
  | cons y rest ih =>
      intro a x hx
      simp only [List.foldl_cons]
      rcases List.mem_cons.mp hx with h | h
      · subst h
        exact le_trans (foldl_min_le rest (min a x)) (min_le_right a x)
      · exact ih (min a y) x h

theorem le_foldl_min (l : List Int) :
    ∀ (a b : Int), b ≤ a → (∀ x ∈ l, b ≤ x) → b ≤ l.foldl min a := by
  induction l with
  | nil => intro a b h _; simpa
  | cons y ys ih =>
      intro a b hba hall
      simp only [List.foldl_cons]
      exact ih (min a y) b (le_min hba (hall y (by simp)))
        (fun x hx => hall x (by simp [hx]))

theorem le_jsMinList (l : List Int) (b c : Int) (hall : ∀ x ∈ l, b ≤ x)
    (hc : b ≤ c) : b ≤ (jsMinList l).getD c := by
  cases l with
  | nil => simpa [jsMinList]
  | cons a rest =>
      simp only [jsMinList, Option.getD_some]
      exact le_foldl_min rest a b (hall a (by simp)) (fun x hx => hall x (by simp [hx]))

theorem find?_of_mem_nodup (tasks : List CPMInput) (t : CPMInput)
    (h : (idsOf tasks).Nodup) (ht : t ∈ tasks) :
    tasks.find? (fun u => u.id == t.id) = some t := by
  induction tasks with
  | nil => simp at ht
  | cons u rest ih =>
      simp only [idsOf, List.map_cons, List.nodup_cons] at h
      rcases List.mem_cons.mp ht with he | hm
      · subst he
        simp [List.find?_cons]
      · have hne : u.id ≠ t.id := by
          intro he
          exact h.1 (he ▸ List.mem_map_of_mem (fun t => t.id) hm)
        simp only [List.find?_cons]
        have : (u.id == t.id) = false := by simp [hne]
        rw [this]
        exact ih h.2 hm

theorem find?_some_spec (tasks : List CPMInput) (x : String) (t : CPMInput)
    (h : tasks.find? (fun u => u.id == x) = some t) : t ∈ tasks ∧ t.id = x := by
  refine ⟨List.mem_of_find?_eq_some h, ?_⟩
  have := List.find?_some h
  simpa using this

theorem find?_isSome_iff_mem_ids (tasks : List CPMInput) (x : String) :
    (tasks.find? (fun t => t.id == x)).isSome ↔ x ∈ idsOf tasks := by
  constructor
  · intro h
    rcases Option.isSome_iff_exists.mp h with ⟨t, ht⟩
    rcases find?_some_spec tasks x t ht with ⟨hm, hid⟩
    exact hid ▸ List.mem_map_of_mem (fun t => t.id) hm
  · intro h
    rcases List.mem_map.mp h with ⟨t, hm, hid⟩
    have hid' : t.id = x := hid
    exact List.find?_isSome.mpr ⟨t, hm, by simp [hid']⟩

theorem depsOfId_of_mem (tasks : List CPMInput) (t : CPMInput)
    (h : (idsOf tasks).Nodup) (ht : t ∈ tasks) :
    depsOfId tasks t.id = t.dependencies := by
  simp [depsOfId, find?_of_mem_nodup tasks t h ht]

theorem jmGet_buildPredecessors (tasks : List CPMInput) (x : String)
    (h : (idsOf tasks).Nodup) :
    jmGet (buildPredecessors tasks) x =
      (tasks.find? (fun t => t.id == x)).map (fun t => t.dependencies) := by
  rw [buildPredecessors_eq tasks h]
  exact jmGet_mapPair tasks (fun t => t.id) (fun t => t.dependencies) x

theorem getD_buildPredecessors (tasks : List CPMInput) (x : String)
    (h : (idsOf tasks).Nodup) :
    (jmGet (buildPredecessors tasks) x).getD [] = depsOfId tasks x := by
  rw [jmGet_buildPredecessors tasks x h]
  simp [depsOfId]

theorem succInner_get (tid : String) :
    ∀ (ds : List String) (m : JMap (List String)) (p : String), ds.Nodup →
      jmGet (ds.foldl (fun m depId =>
          match jmGet m depId with
          | some succs => jmSet m depId (succs ++ [tid])
          | none => m) m) p =
        (jmGet m p).map (fun v => v ++ if p ∈ ds then [tid] else []) := by
  intro ds
  induction ds with
  | nil =>
      intro m p _
      cases h : jmGet m p <;> simp [h]
  | cons d ds ih =>
      intro m p hnd
      simp only [List.nodup_cons] at hnd
      simp only [List.foldl_cons]
      rw [ih _ p hnd.2]
      by_cases hpd : p = d
      · subst hpd
        have hps : p ∉ ds := hnd.1
        cases h : jmGet m p with
        | none => simp [h]
        | some s =>
            simp only [h, jmGet_set_self, if_neg hps, Option.map_some]
            simp [List.mem_cons, hps]
      · have hget : jmGet (match jmGet m d with
            | some succs => jmSet m d (succs ++ [tid])
            | none => m) p = jmGet m p := by
          cases h : jmGet m d with
          | none => simp
          | some s => simp [jmGet_set_ne _ _ _ _ (Ne.symm hpd)]
        rw [hget]
        simp only [List.mem_cons, hpd, false_or]

theorem succPhase_get :
    ∀ (l : List CPMInput) (m : JMap (List String)) (p : String),
      (∀ t ∈ l, t.dependencies.Nodup) →
      jmGet (l.foldl addSuccEdges m) p =
        (jmGet m p).map (fun v => v ++ succsOfId l p) := by
  intro l
  induction l with
  | nil =>
      intro m p _
      cases h : jmGet m p <;> simp [h, succsOfId]
  | cons t l ih =>
      intro m p hnd
      simp only [List.foldl_cons]
      rw [ih _ p (fun u hu => hnd u (List.mem_cons_of_mem _ hu))]
      have hA : jmGet (addSuccEdges m t) p =
          (jmGet m p).map (fun v => v ++ if p ∈ t.dependencies then [t.id] else []) :=
        succInner_get t.id t.dependencies m p (hnd t (List.mem_cons_self _ _))
      rw [hA]
      have hstep : (if p ∈ t.dependencies then [t.id] else []) ++ succsOfId l p =
          succsOfId (t :: l) p := by
        simp only [succsOfId, List.filter_cons]
        by_cases hc : p ∈ t.dependencies
        · simp [hc]
        · simp [hc]
      cases h : jmGet m p with
      | none => simp
      | some v => simp [List.append_assoc, hstep]

theorem jmGet_succBase (tasks : List CPMInput) (p : String)
    (h : (idsOf tasks).Nodup) :
    jmGet (tasks.foldl (fun m t => jmSet m t.id ([] : List String)) []) p =
      (tasks.find? (fun t => t.id == p)).map (fun _ => ([] : List String)) := by
  have := foldl_set_fresh tasks (fun t => t.id) (fun _ => ([] : List String)) [] h (by simp)
  rw [List.nil_append] at this
  rw [this]
  exact jmGet_mapPair tasks (fun t => t.id) (fun _ => []) p

theorem jmGet_buildSuccessors (tasks : List CPMInput) (p : String)
    (h : (idsOf tasks).Nodup) (hdep : ∀ t ∈ tasks, t.dependencies.Nodup) :
    jmGet (buildSuccessors tasks) p =
      (tasks.find? (fun t => t.id == p)).map (fun _ => succsOfId tasks p) := by
  unfold buildSuccessors
  rw [succPhase_get tasks _ p hdep, jmGet_succBase tasks p h]
  cases hf : tasks.find? (fun t => t.id == p) <;> simp

theorem eq_of_mem_same_id (tasks : List CPMInput) (hid : (idsOf tasks).Nodup)
    (t u : CPMInput) (ht : t ∈ tasks) (hu : u ∈ tasks) (he : t.id = u.id) :
    t = u := by
  have h1 := find?_of_mem_nodup tasks t hid ht
  have h2 := find?_of_mem_nodup tasks u hid hu
  rw [he] at h1
  rw [h1] at h2
  exact Option.some.inj h2

theorem remDeg_zero_iff (tasks : List CPMInput) (acc : List String) (t : CPMInput) :
    remDeg tasks acc t = 0 ↔ ∀ d ∈ t.dependencies, d ∈ idsOf tasks ∧ d ∈ acc := by
  unfold remDeg
  rw [List.countP_eq_zero]
  constructor
  · intro h d hd
    have := h d hd
    simpa using this
  · intro h d hd
    rcases h d hd with ⟨h1, h2⟩
    simp [h1, h2]

theorem remDeg_pos (tasks : List CPMInput) (acc : List String) (t : CPMInput)
    (id : String) (hd : id ∈ t.dependencies) (hacc : id ∉ acc) :
    0 < remDeg tasks acc t := by
  unfold remDeg
  rw [List.countP_pos_iff]
  exact ⟨id, hd, by simp [hacc]⟩

theorem remDeg_append_not_mem (tasks : List CPMInput) (acc : List String)
    (t : CPMInput) (id : String) (hd : id ∉ t.dependencies) :
    remDeg tasks (acc ++ [id]) t = remDeg tasks acc t := by
  unfold remDeg
  apply List.countP_congr
  intro d hdmem
  have hne : d ≠ id := fun he => hd (he ▸ hdmem)
  simp [List.mem_append, hne]

theorem remDeg_append_mem (tasks : List CPMInput) (acc : List String)
    (t : CPMInput) (id : String) (hd : id ∈ t.dependencies)
    (hnd : t.dependencies.Nodup) (hids : id ∈ idsOf tasks) (hacc : id ∉ acc) :
    remDeg tasks acc t = remDeg tasks (acc ++ [id]) t + 1 := by
  rcases List.append_of_mem hd with ⟨l₁, l₂, hsplit⟩
  unfold remDeg
  rw [hsplit]
  have hl : id ∉ l₁ ∧ id ∉ l₂ := by
    have := hsplit ▸ hnd
    rw [List.nodup_middle] at this
    rcases List.nodup_cons.mp this with ⟨hni, _⟩
    constructor <;> intro hmem <;> exact hni (by simp [hmem])
  simp only [List.countP_append, List.countP_cons]
  have h1 : ∀ l : List String, id ∉ l →
      l.countP (fun d => !(decide (d ∈ idsOf tasks) && decide (d ∈ acc ++ [id]))) =
      l.countP (fun d => !(decide (d ∈ idsOf tasks) && decide (d ∈ acc))) := by
    intro l hnl
    apply List.countP_congr
    intro d hdmem
    have hne : d ≠ id := fun he => hnl (he ▸ hdmem)
    simp [List.mem_append, hne]
  rw [h1 l₁ hl.1, h1 l₂ hl.2]
  have hid_old : (!(decide (id ∈ idsOf tasks) && decide (id ∈ acc))) = true := by
    simp [hacc]
  have hid_new : (!(decide (id ∈ idsOf tasks) && decide (id ∈ acc ++ [id]))) = false := by
    simp [hids, List.mem_append]
  rw [hid_old, hid_new]
  simp
  omega

theorem succFold_spec (tasks : List CPMInput) (id : String)
    (hidmem : id ∈ idsOf tasks) (acc : List String) (hidacc : id ∉ acc) :
    ∀ (T : List CPMInput) (deg : JMap Nat) (q : List String),
      (∀ t ∈ T, t ∈ tasks ∧ id ∈ t.dependencies ∧ t.dependencies.Nodup) →
      ((T.map (fun t => t.id)).Nodup) →
      (∀ t ∈ T, jmGet deg t.id = some (remDeg tasks acc t)) →
      ((∀ t ∈ T, jmGet ((T.map (fun t => t.id)).foldl processSucc (deg, q)).1 t.id =
          some (remDeg tasks (acc ++ [id]) t)) ∧
        (∀ x, x ∉ T.map (fun t => t.id) →
          jmGet ((T.map (fun t => t.id)).foldl processSucc (deg, q)).1 x = jmGet deg x) ∧
        ((T.map (fun t => t.id)).foldl processSucc (deg, q)).2 =
          q ++ (T.filter (fun t => decide (remDeg tasks (acc ++ [id]) t = 0))).map
            (fun t => t.id)) := by
  intro T
  induction T with
  | nil =>
      intro deg q _ _ _
      refine ⟨by simp, by simp, by simp⟩
  | cons t T ih =>
      intro deg q hTmem hTnd hTdeg
      have htT := hTmem t (List.mem_cons_self _ _)
      have hpos : 0 < remDeg tasks acc t :=
        remDeg_pos tasks acc t id htT.2.1 hidacc
      have hsub : remDeg tasks acc t = remDeg tasks (acc ++ [id]) t + 1 :=
        remDeg_append_mem tasks acc t id htT.2.1 htT.2.2 hidmem hidacc
      have hstep : processSucc (deg, q) t.id =
          (jmSet deg t.id (remDeg tasks (acc ++ [id]) t),
            if remDeg tasks (acc ++ [id]) t = 0 then q ++ [t.id] else q) := by
        unfold processSucc
        simp only [hTdeg t (List.mem_cons_self _ _)]
        have hne : remDeg tasks acc t ≠ 0 := Nat.pos_iff_ne_zero.mp hpos
        simp only [if_neg hne]
        rw [hsub]
        simp
      simp only [List.map_cons, List.nodup_cons] at hTnd
      simp only [List.map_cons, List.foldl_cons, hstep]
      have hdeg' : ∀ u ∈ T, jmGet (jmSet deg t.id (remDeg tasks (acc ++ [id]) t)) u.id =
          some (remDeg tasks acc u) := by
        intro u hu
        have hne : t.id ≠ u.id := by
          intro he
          exact hTnd.1 (he ▸ List.mem_map_of_mem (fun t => t.id) hu)
        rw [jmGet_set_ne _ _ _ _ hne]
        exact hTdeg u (List.mem_cons_of_mem _ hu)
      rcases ih (jmSet deg t.id (remDeg tasks (acc ++ [id]) t))
          (if remDeg tasks (acc ++ [id]) t = 0 then q ++ [t.id] else q)
          (fun u hu => hTmem u (List.mem_cons_of_mem _ hu)) hTnd.2 hdeg' with
        ⟨ih1, ih2, ih3⟩
      refine ⟨?_, ?_, ?_⟩
      · intro u hu
        rcases List.mem_cons.mp hu with he | hm
        · subst he
          rw [ih2 u.id hTnd.1]
          exact jmGet_set_self _ _ _
        · exact ih1 u hm
      · intro x hx
        simp only [List.mem_cons] at hx
        push_neg at hx
        rw [ih2 x hx.2]
        exact jmGet_set_ne _ _ _ _ (Ne.symm hx.1)
      · rw [ih3]
        simp only [List.filter_cons]
        by_cases hc : remDeg tasks (acc ++ [id]) t = 0
        · simp [hc]
        · simp [hc]

theorem snoc_eq_append_cons {α : Type} (l : List α) (a : α) (l₁ l₂ : List α) (x : α)
    (h : l ++ [a] = l₁ ++ x :: l₂) :
    (l₂ = [] ∧ l₁ = l ∧ x = a) ∨ (∃ l₂', l₂ = l₂' ++ [a] ∧ l = l₁ ++ x :: l₂') := by
  rcases List.eq_nil_or_concat l₂ with hnil | ⟨l₂', b, hsnoc⟩
  · subst hnil
    rcases List.append_inj' h (by simp) with ⟨h1, h2⟩
    exact Or.inl ⟨rfl, h1.symm, (List.cons.injEq _ _ _ _ ▸ h2.symm : _ ∧ _).1⟩
  · subst hsnoc
    rw [List.concat_eq_append, ← List.cons_append, ← List.append_assoc] at h
    rcases List.append_inj' h (by simp) with ⟨h1, h2⟩
    have hab : a = b := by simpa using h2
    exact Or.inr ⟨l₂', by rw [hab]; exact List.concat_eq_append _ _, h1⟩

theorem kahnLoop_sortedOK (tasks : List CPMInput)
    (hid : (idsOf tasks).Nodup) (hdep : ∀ t ∈ tasks, t.dependencies.Nodup) :
    ∀ (fuel : Nat) (queue : List String) (deg : JMap Nat) (acc : List String),
      KahnInv tasks queue deg acc →
      SortedOK tasks (kahnLoop (buildSuccessors tasks) fuel queue deg acc) := by
  intro fuel
  induction fuel with
  | zero =>
      intro queue deg acc inv
      exact ⟨inv.accNodup, inv.accSub, inv.accOrder⟩
  | succ fuel ih =>
      intro queue deg acc inv
      cases queue with
      | nil => exact ⟨inv.accNodup, inv.accSub, inv.accOrder⟩
      | cons id queue' =>
          have hidmem : id ∈ idsOf tasks := inv.queueSub id (List.mem_cons_self _ _)
          have hidacc : id ∉ acc := fun hmem =>
            inv.disj id hmem (List.mem_cons_self _ _)
          have hidq' : id ∉ queue' := (List.nodup_cons.mp inv.queueNodup).1
          have hsid : jmGet (buildSuccessors tasks) id = some (succsOfId tasks id) := by
            rw [jmGet_buildSuccessors tasks id hid hdep]
            rcases Option.isSome_iff_exists.mp
              ((find?_isSome_iff_mem_ids tasks id).mpr hidmem) with ⟨t₀, ht₀⟩
            rw [ht₀]
            rfl
          have hT : ∀ t ∈ tasks.filter (fun t => decide (id ∈ t.dependencies)),
              t ∈ tasks ∧ id ∈ t.dependencies ∧ t.dependencies.Nodup := by
            intro t ht
            rcases List.mem_filter.mp ht with ⟨hmem, hdec⟩
            exact ⟨hmem, of_decide_eq_true hdec, hdep t hmem⟩
          have hTnd : (((tasks.filter (fun t => decide (id ∈ t.dependencies))).map
              (fun t => t.id))).Nodup :=
            hid.sublist ((List.filter_sublist tasks).map (fun t => t.id))
          rcases succFold_spec tasks id hidmem acc hidacc
              (tasks.filter (fun t => decide (id ∈ t.dependencies))) deg queue'
              hT hTnd (fun t ht => inv.degVal t (hT t ht).1) with ⟨hres1, hres2, hres3⟩
          have hdegAll : ∀ t ∈ tasks,
              jmGet (((tasks.filter (fun t => decide (id ∈ t.dependencies))).map
                (fun t => t.id)).foldl processSucc (deg, queue')).1 t.id =
              some (remDeg tasks (acc ++ [id]) t) := by
            intro t htmem
            by_cases hc : id ∈ t.dependencies
            · exact hres1 t (List.mem_filter.mpr ⟨htmem, by simp [hc]⟩)
            · have hnotin : t.id ∉ (tasks.filter
                  (fun t => decide (id ∈ t.dependencies))).map (fun t => t.id) := by
                intro hmem
                rcases List.mem_map.mp hmem with ⟨u, hu, hueq⟩
                have : u = t := eq_of_mem_same_id tasks hid u t (hT u hu).1 htmem hueq
                exact hc (this ▸ (hT u hu).2.1)
              rw [hres2 t.id hnotin, inv.degVal t htmem,
                remDeg_append_not_mem tasks acc t id hc]
          have hPfresh : ∀ u ∈ (tasks.filter (fun t => decide (id ∈ t.dependencies))).filter
              (fun t => decide (remDeg tasks (acc ++ [id]) t = 0)),
              u ∈ tasks ∧ id ∈ u.dependencies ∧ u.id ∉ (id :: queue') ∧ u.id ∉ acc := by
            intro u hu
            rcases List.mem_filter.mp hu with ⟨hu1, _⟩
            rcases hT u hu1 with ⟨humem, hudep, _⟩
            have hq : u.id ∉ (id :: queue') := by
              intro hmem
              have := inv.queueReady u.id hmem id
                ((depsOfId_of_mem tasks u hid humem).symm ▸ hudep)
              exact hidacc this.2
            have ha : u.id ∉ acc := by
              intro hmem
              rcases List.append_of_mem hmem with ⟨s, s', hsplit⟩
              have := inv.accOrder s u.id s' hsplit id
                ((depsOfId_of_mem tasks u hid humem).symm ▸ hudep)
              exact hidacc (hsplit ▸ List.mem_append_left _ this.2)
            exact ⟨humem, hudep, hq, ha⟩
          simp only [kahnLoop, hsid, Option.getD_some]
          have hSeq : succsOfId tasks id =
              (tasks.filter (fun t => decide (id ∈ t.dependencies))).map
                (fun t => t.id) := rfl
          rw [hSeq, hres3]
          apply ih
          constructor
          case accNodup =>
            simp only [List.nodup_append, List.nodup_cons]
            exact ⟨inv.accNodup, by simp, by simpa using hidacc⟩
          case queueNodup =>
            rw [List.nodup_append]
            refine ⟨(List.nodup_cons.mp inv.queueNodup).2,
              hTnd.sublist ((List.filter_sublist
                (tasks.filter (fun t => decide (id ∈ t.dependencies)))).map
                  (fun t : CPMInput => t.id)), ?_⟩
            intro x hx hx2
            rcases List.mem_map.mp hx2 with ⟨u, hu, hueq⟩
            exact (hPfresh u hu).2.2.1 (hueq ▸ List.mem_cons_of_mem _ hx)
          case disj =>
            intro x hx
            rw [List.mem_append] at hx
            rcases hx with hx | hx
            · intro hmem
              rw [List.mem_append] at hmem
              rcases hmem with hm | hm
              · exact inv.disj x hx (List.mem_cons_of_mem _ hm)
              · rcases List.mem_map.mp hm with ⟨u, hu, hueq⟩
                exact (hPfresh u hu).2.2.2 (hueq ▸ hx)
            · rcases List.mem_singleton.mp hx with rfl
              intro hmem
              rw [List.mem_append] at hmem
              rcases hmem with hm | hm
              · exact hidq' hm
              · rcases List.mem_map.mp hm with ⟨u, hu, hueq⟩
                exact (hPfresh u hu).2.2.1 (hueq ▸ List.mem_cons_self _ _)
          case accSub =>
            intro x hx
            rw [List.mem_append] at hx
            rcases hx with hx | hx
            · exact inv.accSub x hx
            · rcases List.mem_singleton.mp hx with rfl
              exact hidmem
          case queueSub =>
            intro x hx
            rw [List.mem_append] at hx
            rcases hx with hx | hx
            · exact inv.queueSub x (List.mem_cons_of_mem _ hx)
            · rcases List.mem_map.mp hx with ⟨u, hu, hueq⟩
              have hu1 := (List.mem_filter.mp hu).1
              exact hueq ▸ List.mem_map_of_mem (fun t : CPMInput => t.id) (hT u hu1).1
          case queueReady =>
            intro x hx d hd
            rw [List.mem_append] at hx
            rcases hx with hx | hx
            · have := inv.queueReady x (List.mem_cons_of_mem _ hx) d hd
              exact ⟨this.1, List.mem_append_left _ this.2⟩
            · rcases List.mem_map.mp hx with ⟨u, hu, hueq⟩
              rcases List.mem_filter.mp hu with ⟨hu1, hu2⟩
              have humem := (hT u hu1).1
              have hzero : remDeg tasks (acc ++ [id]) u = 0 := of_decide_eq_true hu2
              have hdeps := (remDeg_zero_iff tasks (acc ++ [id]) u).mp hzero
              have hdchar : depsOfId tasks x = u.dependencies := by
                rw [← hueq]
                exact depsOfId_of_mem tasks u hid humem
              exact hdeps d (hdchar ▸ hd)
          case accOrder =>
            intro l₁ x l₂ hsplit d hd
            rcases snoc_eq_append_cons acc id l₁ l₂ x hsplit with
              ⟨_, hl₁, hx⟩ | ⟨l₂', _, hacc⟩
            · have hq := inv.queueReady id (List.mem_cons_self id queue') d (hx ▸ hd)
              exact ⟨hq.1, by rw [hl₁]; exact hq.2⟩
            · exact inv.accOrder l₁ x l₂' hacc d hd
          case degVal =>
            intro t htmem
            exact hdegAll t htmem

theorem remDeg_nil (tasks : List CPMInput) (t : CPMInput) :
    remDeg tasks [] t = t.dependencies.length := by
  unfold remDeg
  have h : t.dependencies.countP
      (fun d => !(decide (d ∈ idsOf tasks) && decide (d ∈ ([] : List String)))) =
      t.dependencies.countP (fun _ => true) := by
    apply List.countP_congr
    intro d _
    simp
  rw [h, List.countP_true]

theorem topologicalSort_sortedOK (tasks : List CPMInput)
    (hid : (idsOf tasks).Nodup) (hdep : ∀ t ∈ tasks, t.dependencies.Nodup) :
    SortedOK tasks
      (topologicalSort tasks (buildPredecessors tasks) (buildSuccessors tasks)) := by
  have hdegchar : ∀ t ∈ tasks,
      jmGet (buildInDegree tasks (buildPredecessors tasks)) t.id =
        some t.dependencies.length := by
    intro t ht
    rw [buildInDegree_eq tasks _ hid,
      jmGet_mapPair tasks (fun t => t.id)
        (fun t => ((jmGet (buildPredecessors tasks) t.id).getD []).length) t.id,
      find?_of_mem_nodup tasks t hid ht]
    simp [getD_buildPredecessors tasks t.id hid, depsOfId_of_mem tasks t hid ht]
  have hqchar : ((buildInDegree tasks (buildPredecessors tasks)).filter
        (fun p => decide (p.2 = 0))).map (fun p => p.1) =
      (tasks.filter (fun t =>
        decide (((jmGet (buildPredecessors tasks) t.id).getD []).length = 0))).map
        (fun t => t.id) := by
    rw [buildInDegree_eq tasks _ hid, List.filter_map, List.map_map]
    rfl
  unfold topologicalSort
  apply kahnLoop_sortedOK tasks hid hdep
  refine ⟨by simp, ?_, ?_, ?_, ?_, ?_, ?_, ?_⟩
  · rw [hqchar]
    exact hid.sublist ((List.filter_sublist tasks).map (fun t : CPMInput => t.id))
  · intro x hx; simp at hx
  · intro x hx; simp at hx
  · intro x hx
    rw [hqchar] at hx
    rcases List.mem_map.mp hx with ⟨u, hu, hueq⟩
    exact hueq ▸ List.mem_map_of_mem (fun t : CPMInput => t.id) (List.mem_filter.mp hu).1
  · intro x hx d hd
    rw [hqchar] at hx
    rcases List.mem_map.mp hx with ⟨u, hu, hueq⟩
    rcases List.mem_filter.mp hu with ⟨humem, hcond⟩
    have hlen : ((jmGet (buildPredecessors tasks) u.id).getD []).length = 0 :=
      of_decide_eq_true hcond
    rw [getD_buildPredecessors tasks u.id hid, depsOfId_of_mem tasks u hid humem] at hlen
    have hdeps : u.dependencies = [] := List.eq_nil_of_length_eq_zero hlen
    rw [← hueq, depsOfId_of_mem tasks u hid humem, hdeps] at hd
    simp at hd
  · intro l₁ x l₂ hsplit
    cases l₁ <;> simp at hsplit
  · intro t ht
    rw [hdegchar t ht, remDeg_nil tasks t]

theorem fwd_step_other (preds : JMap (List String)) (m : JMap CPMNode)
    (y x : String) (hne : y ≠ x) :
    jmGet (forwardStep preds m y) x = jmGet m x := by
  unfold forwardStep
  cases h : jmGet m y with
  | none => rfl
  | some node => exact jmGet_set_ne m y x _ hne

theorem fwd_fold_not_mem (preds : JMap (List String)) :
    ∀ (l : List String) (m : JMap CPMNode) (x : String), x ∉ l →
      jmGet (l.foldl (forwardStep preds) m) x = jmGet m x := by
  intro l
  induction l with
  | nil => intro m x _; rfl
  | cons y l ih =>
      intro m x hx
      simp only [List.mem_cons] at hx
      push_neg at hx
      simp only [List.foldl_cons]
      rw [ih _ x hx.2, fwd_step_other preds m y x (Ne.symm hx.1)]

theorem bwd_step_other (succ : JMap (List String)) (pd : Int) (m : JMap CPMNode)
    (y x : String) (hne : y ≠ x) :
    jmGet (backwardStep succ pd m y) x = jmGet m x := by
  unfold backwardStep
  cases h : jmGet m y with
  | none => rfl
  | some node => exact jmGet_set_ne m y x _ hne

theorem bwd_fold_not_mem (succ : JMap (List String)) (pd : Int) :
    ∀ (l : List String) (m : JMap CPMNode) (x : String), x ∉ l →
      jmGet (l.foldl (backwardStep succ pd) m) x = jmGet m x := by
  intro l
  induction l with
  | nil => intro m x _; rfl
  | cons y l ih =>
      intro m x hx
      simp only [List.mem_cons] at hx
      push_neg at hx
      simp only [List.foldl_cons]
      rw [ih _ x hx.2, bwd_step_other succ pd m y x (Ne.symm hx.1)]

theorem nodeEffDur_update_fw (node : CPMNode) (es ef : Int) :
    nodeEffDur { node with es := es, ef := ef } = nodeEffDur node := rfl

theorem nodeEffDur_update_bw (node : CPMNode) (ls lf : Int) :
    nodeEffDur { node with ls := ls, lf := lf } = nodeEffDur node := rfl

theorem fwd_efrel (preds : JMap (List String)) :
    ∀ (l : List String) (m : JMap CPMNode) (x : String), x ∈ l →
      ∀ n, jmGet (l.foldl (forwardStep preds) m) x = some n →
        n.ef = n.es + nodeEffDur n := by
  intro l
  induction l with
  | nil => intro m x hx; simp at hx
  | cons y l ih =>
      intro m x hx n hn
      simp only [List.foldl_cons] at hn
      by_cases hxl : x ∈ l
      · exact ih _ x hxl n hn
      · rcases List.mem_cons.mp hx with he | hm
        · subst he
          rw [fwd_fold_not_mem preds l _ x hxl] at hn
          unfold forwardStep at hn
          cases h : jmGet m x with
          | none => rw [h] at hn; rw [h] at hn; exact absurd hn (by simp [h])
          | some node =>
              rw [h] at hn
              simp only [jmGet_set_self] at hn
              cases hn
              simp [nodeEffDur_update_fw]
        · exact absurd hm hxl

theorem bwd_lsrel (succ : JMap (List String)) (pd : Int) :
    ∀ (l : List String) (m : JMap CPMNode) (x : String), x ∈ l →
      ∀ n, jmGet (l.foldl (backwardStep succ pd) m) x = some n →
        n.ls = n.lf - nodeEffDur n := by
  intro l
  induction l with
  | nil => intro m x hx; simp at hx
  | cons y l ih =>
      intro m x hx n hn
      simp only [List.foldl_cons] at hn
      by_cases hxl : x ∈ l
      · exact ih _ x hxl n hn
      · rcases List.mem_cons.mp hx with he | hm
        · subst he
          rw [bwd_fold_not_mem succ pd l _ x hxl] at hn
          unfold backwardStep at hn
          cases h : jmGet m x with
          | none => rw [h] at hn; exact absurd hn (by simp [h])
          | some node =>
              rw [h] at hn
              simp only [jmGet_set_self] at hn
              cases hn
              simp [nodeEffDur_update_bw]
        · exact absurd hm hxl

theorem fwd_step_none (preds : JMap (List String)) (m : JMap CPMNode) (y : String)
    (h : jmGet m y = none) : forwardStep preds m y = m := by
  unfold forwardStep
  rw [h]

theorem fwd_step_self (preds : JMap (List String)) (m : JMap CPMNode) (y : String)
    (node : CPMNode) (h : jmGet m y = some node) :
    jmGet (forwardStep preds m y) y =
      some { node with es := fwdES preds m y,
                       ef := fwdES preds m y + nodeEffDur node } := by
  unfold forwardStep
  rw [h]
  exact jmGet_set_self m y _

theorem bwd_step_none (succ : JMap (List String)) (pd : Int) (m : JMap CPMNode)
    (y : String) (h : jmGet m y = none) : backwardStep succ pd m y = m := by
  unfold backwardStep
  rw [h]

theorem bwd_step_self (succ : JMap (List String)) (pd : Int) (m : JMap CPMNode)
    (y : String) (node : CPMNode) (h : jmGet m y = some node) :
    jmGet (backwardStep succ pd m y) y =
      some { node with lf := bwdLF succ pd m y,
                       ls := bwdLF succ pd m y - nodeEffDur node } := by
  unfold backwardStep
  rw [h]
  exact jmGet_set_self m y _

theorem bwd_preserves (succ : JMap (List String)) (pd : Int) :
    ∀ (l : List String) (m : JMap CPMNode) (x : String) (n' : CPMNode),
      jmGet (l.foldl (backwardStep succ pd) m) x = some n' →
      ∃ n, jmGet m x = some n ∧ n'.es = n.es ∧ n'.ef = n.ef ∧ n'.id = n.id ∧
        nodeEffDur n' = nodeEffDur n := by
  intro l
  induction l with
  | nil =>
      intro m x n' hn
      exact ⟨n', hn, rfl, rfl, rfl, rfl⟩
  | cons y l ih =>
      intro m x n' hn
      simp only [List.foldl_cons] at hn
      rcases ih _ x n' hn with ⟨n₁, hn₁, h1, h2, h3, h4⟩
      by_cases hxy : y = x
      · subst hxy
        cases h : jmGet m y with
        | none =>
            rw [bwd_step_none succ pd m y h] at hn₁
            rw [h] at hn₁
            exact absurd hn₁ (by simp)
        | some node =>
            rw [bwd_step_self succ pd m y node h] at hn₁
            cases hn₁
            exact ⟨node, rfl, h1, h2, h3,
              by rw [h4]; exact nodeEffDur_update_bw node _ _⟩
      · rw [bwd_step_other succ pd m y x hxy] at hn₁
        exact ⟨n₁, hn₁, h1, h2, h3, h4⟩

theorem calculateCPM_eq (tasks : List CPMInput) (h : ¬(tasks = [])) :
    calculateCPM tasks =
      { nodes := (cpmSorted tasks).filterMap (fun id => jmGet (cpmNodes3 tasks) id),
        criticalPath :=
          List.insertionSort
            (fun a b => esKey (cpmNodes3 tasks) a ≤ esKey (cpmNodes3 tasks) b)
            (((cpmNodes3 tasks).filter (fun p => p.2.isCritical)).map (fun p => p.1)),
        projectDuration := cpmPD tasks } := by
  unfold calculateCPM cpmNodes3 cpmNodes2 cpmPD cpmNodes1 cpmNodes0 cpmSorted
  rw [if_neg h]

theorem jmGet_mapVal {α β : Type} (f : α → β) :
    ∀ (m : JMap α) (k : String),
      jmGet (m.map (fun p => (p.1, f p.2))) k = (jmGet m k).map f := by
  intro m
  induction m with
  | nil => intro k; rfl
  | cons p rest ih =>
      intro k
      by_cases h : p.1 = k
      · simp [jmGet, h]
      · simp only [List.map_cons, jmGet, if_neg h]
        exact ih k

theorem jmGet_cpmNodes3 (tasks : List CPMInput) (x : String) :
    jmGet (cpmNodes3 tasks) x = (jmGet (cpmNodes2 tasks) x).map setFloat := by
  unfold cpmNodes3
  exact jmGet_mapVal setFloat (cpmNodes2 tasks) x

theorem forward_pass_spec (preds : JMap (List String)) (sorted : List String)
    (m0 : JMap CPMNode) (hnd : sorted.Nodup)
    (hkeys : ∀ x ∈ sorted, (jmGet m0 x).isSome)
    (horder : ∀ l₁ x l₂, sorted = l₁ ++ x :: l₂ →
      ∀ d ∈ (jmGet preds x).getD [], d ∉ x :: l₂) :
    ∀ l₁ x l₂, sorted = l₁ ++ x :: l₂ →
      ∃ n, jmGet (sorted.foldl (forwardStep preds) m0) x = some n ∧
        ∀ d ∈ (jmGet preds x).getD [], ∀ nd,
          jmGet (sorted.foldl (forwardStep preds) m0) d = some nd → nd.ef ≤ n.es := by
  intro l₁ x l₂ hsplit
  have hx : x ∈ sorted := by rw [hsplit]; simp
  have hnd' := hsplit ▸ hnd
  have hxl₁ : x ∉ l₁ := by
    rw [List.nodup_middle, List.nodup_cons] at hnd'
    intro hmem
    exact hnd'.1 (List.mem_append_left _ hmem)
  have hxl₂ : x ∉ l₂ := by
    rw [List.nodup_middle, List.nodup_cons] at hnd'
    intro hmem
    exact hnd'.1 (List.mem_append_right _ hmem)
  have hfold : sorted.foldl (forwardStep preds) m0 =
      l₂.foldl (forwardStep preds) (forwardStep preds (l₁.foldl (forwardStep preds) m0) x) := by
    rw [hsplit, List.foldl_append, List.foldl_cons]
  rcases Option.isSome_iff_exists.mp (hkeys x hx) with ⟨node0, hnode0⟩
  have hm1x : jmGet (l₁.foldl (forwardStep preds) m0) x = some node0 := by
    rw [fwd_fold_not_mem preds l₁ m0 x hxl₁]
    exact hnode0
  have hstepx := fwd_step_self preds (l₁.foldl (forwardStep preds) m0) x node0 hm1x
  have hfinalx : jmGet (sorted.foldl (forwardStep preds) m0) x =
      some { node0 with es := fwdES preds (l₁.foldl (forwardStep preds) m0) x,
                        ef := fwdES preds (l₁.foldl (forwardStep preds) m0) x +
                          nodeEffDur node0 } := by
    rw [hfold, fwd_fold_not_mem preds l₂ _ x hxl₂]
    exact hstepx
  refine ⟨_, hfinalx, ?_⟩
  intro d hd nd hnd_final
  have hdnot : d ∉ x :: l₂ := horder l₁ x l₂ hsplit d hd
  simp only [List.mem_cons] at hdnot
  push_neg at hdnot
  have hfinal_d : jmGet (sorted.foldl (forwardStep preds) m0) d =
      jmGet (l₁.foldl (forwardStep preds) m0) d := by
    rw [hfold, fwd_fold_not_mem preds l₂ _ d hdnot.2,
      fwd_step_other preds _ x d (fun he => hdnot.1 he.symm)]
  rw [hfinal_d] at hnd_final
  show nd.ef ≤ fwdES preds (l₁.foldl (forwardStep preds) m0) x
  unfold fwdES
  have hps : (jmGet preds x).getD [] ≠ [] := by
    intro he
    rw [he] at hd
    simp at hd
  rw [if_neg hps]
  have hterm : nd.ef ∈ ((jmGet preds x).getD []).map (fun pId =>
      match jmGet (l₁.foldl (forwardStep preds) m0) pId with
      | some n => n.ef
      | none => 0) := by
    apply List.mem_map.mpr
    refine ⟨d, hd, ?_⟩
    rw [hnd_final]
  exact jsMaxList_ge_mem _ _ hterm 0

theorem cpmPD_ge (tasks : List CPMInput) (y : String) (n : CPMNode)
    (h : jmGet (cpmNodes1 tasks) y = some n) : n.ef ≤ (cpmPD tasks).getD 0 := by
  have hmem : (y, n) ∈ cpmNodes1 tasks := jmGet_mem _ _ _ h
  have hef : n.ef ∈ (cpmNodes1 tasks).map (fun p => p.2.ef) :=
    List.mem_map.mpr ⟨(y, n), hmem, rfl⟩
  unfold cpmPD
  exact jsMaxList_ge_mem _ _ hef 0

theorem initfold_preserve (tm : JMap CPMInput) :
    ∀ (l : List String) (acc : JMap CPMNode) (x : String),
      (jmGet acc x).isSome →
      (jmGet (l.foldl (fun m id =>
        match jmGet tm id with
        | some task => jmSet m id (initRec task)
        | none => m) acc) x).isSome := by
  intro l
  induction l with
  | nil => intro acc x h; exact h
  | cons y l ih =>
      intro acc x h
      simp only [List.foldl_cons]
      apply ih
      cases hy : jmGet tm y with
      | none => exact h
      | some task =>
          by_cases hxy : y = x
          · subst hxy
            rw [jmGet_set_self]
            rfl
          · rw [jmGet_set_ne acc y x _ hxy]
            exact h

theorem initNodes_isSome (tm : JMap CPMInput) :
    ∀ (l : List String) (x : String), x ∈ l → (∀ y ∈ l, (jmGet tm y).isSome) →
      (jmGet (initNodes tm l) x).isSome := by
  have hgen : ∀ (l : List String) (acc : JMap CPMNode) (x : String),
      x ∈ l → (∀ y ∈ l, (jmGet tm y).isSome) →
      (jmGet (l.foldl (fun m id =>
        match jmGet tm id with
        | some task => jmSet m id (initRec task)
        | none => m) acc) x).isSome := by
    intro l
    induction l with
    | nil => intro acc x hx; simp at hx
    | cons y l ih =>
        intro acc x hx hall
        simp only [List.foldl_cons]
        by_cases hxy : y = x
        · subst hxy
          rcases Option.isSome_iff_exists.mp (hall y (List.mem_cons_self _ _)) with ⟨t, ht⟩
          apply initfold_preserve
          rw [ht, jmGet_set_self]
          rfl
        · rcases List.mem_cons.mp hx with he | hm
          · exact absurd he.symm hxy
          · exact ih _ x hm (fun z hz => hall z (List.mem_cons_of_mem _ hz))
  intro l x hx hall
  exact hgen l [] x hx hall

theorem initNodes_none (tm : JMap CPMInput) :
    ∀ (l : List String) (x : String), x ∉ l → jmGet (initNodes tm l) x = none := by
  have hgen : ∀ (l : List String) (acc : JMap CPMNode) (x : String),
      x ∉ l → jmGet acc x = none →
      jmGet (l.foldl (fun m id =>
        match jmGet tm id with
        | some task => jmSet m id (initRec task)
        | none => m) acc) x = none := by
    intro l
    induction l with
    | nil => intro acc x _ h; exact h
    | cons y l ih =>
        intro acc x hx hacc
        simp only [List.mem_cons] at hx
        push_neg at hx
        simp only [List.foldl_cons]
        apply ih _ x hx.2
        cases hy : jmGet tm y with
        | none => exact hacc
        | some task =>
            rw [jmGet_set_ne acc y x _ (Ne.symm hx.1)]
            exact hacc
  intro l x hx
  exact hgen l [] x hx rfl

theorem cpmNodes1_none (tasks : List CPMInput) (x : String)
    (hx : x ∉ cpmSorted tasks) : jmGet (cpmNodes1 tasks) x = none := by
  unfold cpmNodes1 cpmNodes0
  rw [fwd_fold_not_mem _ _ _ x hx]
  exact initNodes_none _ _ x hx

theorem cpmNodes1_efrel (tasks : List CPMInput) :
    ∀ (y : String) (n : CPMNode), jmGet (cpmNodes1 tasks) y = some n →
      n.ef = n.es + nodeEffDur n := by
  intro y n h
  by_cases hy : y ∈ cpmSorted tasks
  · exact fwd_efrel (buildPredecessors tasks) (cpmSorted tasks) (cpmNodes0 tasks) y hy n h
  · rw [cpmNodes1_none tasks y hy] at h
    cases h

theorem cpm_succ_pred (tasks : List CPMInput) (hid : (idsOf tasks).Nodup)
    (hdep : ∀ t ∈ tasks, t.dependencies.Nodup) (x s : String)
    (hs : s ∈ (jmGet (buildSuccessors tasks) x).getD []) :
    s ∈ idsOf tasks ∧ x ∈ depsOfId tasks s := by
  by_cases hxmem : x ∈ idsOf tasks
  · rcases Option.isSome_iff_exists.mp
      ((find?_isSome_iff_mem_ids tasks x).mpr hxmem) with ⟨t₀, ht₀⟩
    rw [jmGet_buildSuccessors tasks x hid hdep, ht₀] at hs
    have hs2 : s ∈ succsOfId tasks x := by simpa using hs
    unfold succsOfId at hs2
    rcases List.mem_map.mp hs2 with ⟨u, hu, hueq⟩
    rcases List.mem_filter.mp hu with ⟨humem, hcond⟩
    have hxdep : x ∈ u.dependencies := of_decide_eq_true hcond
    subst hueq
    refine ⟨List.mem_map_of_mem (fun t => t.id) humem, ?_⟩
    rw [depsOfId_of_mem tasks u hid humem]
    exact hxdep
  · rw [jmGet_buildSuccessors tasks x hid hdep] at hs
    have hnone : tasks.find? (fun t => t.id == x) = none := by
      cases hfind : tasks.find? (fun t => t.id == x) with
      | none => rfl
      | some t =>
          exact absurd ((find?_isSome_iff_mem_ids tasks x).mp (by rw [hfind]; rfl)) hxmem
    rw [hnone] at hs
    simp at hs

theorem mem_suffix_of_dep (tasks : List CPMInput) (sorted : List String)
    (hOK : SortedOK tasks sorted) (l₁ : List String) (x : String) (l₂ : List String)
    (hsplit : sorted = l₁ ++ x :: l₂) (s : String) (hs : s ∈ sorted)
    (hdep_s : x ∈ depsOfId tasks s) : s ∈ l₂ := by
  rcases hOK with ⟨hnd, _, horder⟩
  rw [hsplit] at hs
  rcases List.mem_append.mp hs with hs1 | hs2
  · rcases List.append_of_mem hs1 with ⟨a, b, hab⟩
    have hsplit2 : sorted = a ++ s :: (b ++ x :: l₂) := by
      rw [hsplit, hab, List.append_assoc, List.cons_append]
    have hxa := (horder a s (b ++ x :: l₂) hsplit2 x hdep_s).2
    have hnd2 := hsplit2 ▸ hnd
    rw [List.nodup_append] at hnd2
    exact absurd (List.mem_cons_of_mem s
        (List.mem_append_right b (List.mem_cons_self x l₂)))
      (hnd2.2.2 hxa)
  · rcases List.mem_cons.mp hs2 with he | hm
    · subst he
      have hxl := (horder l₁ s l₂ hsplit s hdep_s).2
      have hnd2 := hsplit ▸ hnd
      rw [List.nodup_middle, List.nodup_cons] at hnd2
      exact absurd (List.mem_append_left _ hxl) hnd2.1
    · exact hm

theorem nodup_split_unique {α : Type} (x : α) :
    ∀ (p₁ q₁ p₂ q₂ : List α), (p₁ ++ x :: q₁).Nodup → p₁ ++ x :: q₁ = p₂ ++ x :: q₂ →
      p₁ = p₂ ∧ q₁ = q₂ := by
  intro p₁
  induction p₁ with
  | nil =>
      intro q₁ p₂ q₂ hnd heq
      cases p₂ with
      | nil =>
          simp only [List.nil_append] at heq
          injection heq with _ h2
          exact ⟨rfl, h2⟩
      | cons y p₂' =>
          simp only [List.nil_append, List.cons_append] at heq hnd
          injection heq with h1 h2
          rw [List.nodup_cons] at hnd
          exact absurd (h2 ▸ List.mem_append_right p₂' (List.mem_cons_self x q₂)) hnd.1
  | cons z p₁' ih =>
      intro q₁ p₂ q₂ hnd heq
      cases p₂ with
      | nil =>
          simp only [List.cons_append, List.nil_append] at heq hnd
          injection heq with h1 h2
          rw [List.nodup_cons] at hnd
          subst h1
          exact absurd (List.mem_append_right p₁' (List.mem_cons_self z q₁)) hnd.1
      | cons y p₂' =>
          simp only [List.cons_append] at heq
          injection heq with h1 h2
          rw [List.cons_append, List.nodup_cons] at hnd
          rcases ih q₁ p₂' q₂ hnd.2 h2 with ⟨ha, hb⟩
          exact ⟨by rw [h1, ha], hb⟩

theorem reverse_split {α : Type} (l p q : List α) (x : α)
    (h : l.reverse = p ++ x :: q) : l = q.reverse ++ x :: p.reverse := by
  have h2 := congrArg List.reverse h
  rw [List.reverse_reverse] at h2
  rw [h2]
  simp

theorem backward_pass_go (succ : JMap (List String)) (pd : Int) (nodes1 : JMap CPMNode)
    (hF : ∀ y n1, jmGet nodes1 y = some n1 → n1.ef = n1.es + nodeEffDur n1)
    (hpd : ∀ y n1, jmGet nodes1 y = some n1 → n1.ef ≤ pd)
    (hpredF : ∀ x s nx ns, jmGet nodes1 x = some nx → jmGet nodes1 s = some ns →
      s ∈ (jmGet succ x).getD [] → nx.ef ≤ ns.es) :
    ∀ (todo done : List String) (m : JMap CPMNode),
      todo.Nodup →
      (∀ x ∈ todo, x ∉ done) →
      (∀ x ∈ todo, ∃ n, jmGet m x = some n) →
      (∀ y n', jmGet m y = some n' → ∃ n1, jmGet nodes1 y = some n1 ∧
        n'.es = n1.es ∧ n'.ef = n1.ef ∧ nodeEffDur n' = nodeEffDur n1) →
      (∀ x ∈ done, ∃ n, jmGet m x = some n ∧ n.ls = n.lf - nodeEffDur n ∧ n.ef ≤ n.lf) →
      (∀ p x q, todo = p ++ x :: q → ∀ s ∈ (jmGet succ x).getD [],
        (∃ ns1, jmGet nodes1 s = some ns1) → s ∈ done ++ p) →
      ∀ x, (x ∈ done ∨ x ∈ todo) →
        ∃ n, jmGet (todo.foldl (backwardStep succ pd) m) x = some n ∧
          n.ls = n.lf - nodeEffDur n ∧ n.ef ≤ n.lf := by
  intro todo
  induction todo with
  | nil =>
      intro done m _ _ _ _ hQ _ x hx
      rcases hx with hx | hx
      · exact hQ x hx
      · simp at hx
  | cons y rest ih =>
      intro done m hnd hdisj hkeys hpres hQ horder x hx
      have hynd := List.nodup_cons.mp hnd
      have hydone : y ∉ done := hdisj y (List.mem_cons_self _ _)
      rcases hkeys y (List.mem_cons_self _ _) with ⟨node, hnode⟩
      rcases hpres y node hnode with ⟨n1y, hn1y, hes, hef, hdur⟩
      have hbound : node.ef ≤ bwdLF succ pd m y := by
        unfold bwdLF
        by_cases hss : (jmGet succ y).getD [] = []
        · rw [if_pos hss]
          rw [hef]
          exact hpd y n1y hn1y
        · rw [if_neg hss]
          apply le_jsMinList
          · intro v hv
            rcases List.mem_map.mp hv with ⟨sId, hsId, hveq⟩
            cases hms : jmGet m sId with
            | none =>
                rw [hms] at hveq
                have hvpd : pd = v := hveq
                rw [← hvpd, hef]
                exact hpd y n1y hn1y
            | some ns =>
                rw [hms] at hveq
                have hvls : ns.ls = v := hveq
                rcases hpres sId ns hms with ⟨ns1, hns1, hnses, hnsef, hnsdur⟩
                have hsdone : sId ∈ done := by
                  have := horder [] y rest rfl sId hsId ⟨ns1, hns1⟩
                  simpa using this
                rcases hQ sId hsdone with ⟨nsq, hnsq, hq1, hq2⟩
                have hnseq : ns = nsq := by
                  rw [hms] at hnsq
                  exact Option.some.inj hnsq
                subst hnseq
                have hnsef_rel : ns.ef = ns.es + nodeEffDur ns := by
                  rw [hnsef, hnses, hnsdur]
                  exact hF sId ns1 hns1
                have h1 : node.ef ≤ ns.es := by
                  rw [hef, hnses]
                  exact hpredF y sId n1y ns1 hn1y hns1 hsId
                rw [← hvls, hq1]
                have : ns.es ≤ ns.lf - nodeEffDur ns := by
                  have h2 : ns.ef ≤ ns.lf := hq2
                  omega
                omega
          · rw [hef]
            exact hpd y n1y hn1y
      have hstep := bwd_step_self succ pd m y node hnode
      apply ih (done ++ [y]) (backwardStep succ pd m y)
      · exact hynd.2
      · intro z hz
        simp only [List.mem_append, List.mem_singleton]
        push_neg
        exact ⟨hdisj z (List.mem_cons_of_mem _ hz), fun he => hynd.1 (he ▸ hz)⟩
      · intro z hz
        have hzy : y ≠ z := fun he => hynd.1 (he ▸ hz)
        rw [bwd_step_other succ pd m y z hzy]
        exact hkeys z (List.mem_cons_of_mem _ hz)
      · intro z n' hn'
        by_cases hzy : y = z
        · subst hzy
          rw [hstep] at hn'
          cases hn'
          exact ⟨n1y, hn1y, hes, hef, by rw [nodeEffDur_update_bw]; exact hdur⟩
        · rw [bwd_step_other succ pd m y z hzy] at hn'
          exact hpres z n' hn'
      · intro z hz
        rcases List.mem_append.mp hz with hz1 | hz2
        · have hzy : y ≠ z := fun he => hydone (he ▸ hz1)
          rcases hQ z hz1 with ⟨n, hn, h1, h2⟩
          rw [← bwd_step_other succ pd m y z hzy] at hn
          exact ⟨n, hn, h1, h2⟩
        · rcases List.mem_singleton.mp hz2 with rfl
          refine ⟨_, hstep, ?_, ?_⟩
          · rfl
          · show node.ef ≤ _
            exact hbound
      · intro p z q hsplit s hsSucc hsKey
        have hsplit2 : y :: rest = (y :: p) ++ z :: q := by
          rw [hsplit]
          rfl
        have := horder (y :: p) z q hsplit2 s hsSucc hsKey
        simp only [List.append_assoc, List.singleton_append]
        simpa using this
      · rcases hx with hx | hx
        · exact Or.inl (List.mem_append_left _ hx)
        · rcases List.mem_cons.mp hx with he | hm
          · exact Or.inl (List.mem_append_right _ (by rw [he]; exact List.mem_singleton.mpr rfl))
          · exact Or.inr hm

theorem fwd_fold_isSome (preds : JMap (List String)) :
    ∀ (l : List String) (m : JMap CPMNode) (x : String),
      (jmGet m x).isSome → (jmGet (l.foldl (forwardStep preds) m) x).isSome := by
  intro l
  induction l with
  | nil => intro m x h; exact h
  | cons y l ih =>
      intro m x h
      simp only [List.foldl_cons]
      apply ih
      cases hy : jmGet m y with
      | none => rw [fwd_step_none preds m y hy]; exact h
      | some node =>
          by_cases hxy : y = x
          · subst hxy
            rw [fwd_step_self preds m y node hy]
            rfl
          · unfold forwardStep
            rw [hy, jmGet_set_ne m y x _ hxy]
            exact h


theorem cpmNodes0_isSome (tasks : List CPMInput) (hid : (idsOf tasks).Nodup)
    (hdep : ∀ t ∈ tasks, t.dependencies.Nodup) :
    ∀ z ∈ cpmSorted tasks, (jmGet (cpmNodes0 tasks) z).isSome := by
  have hsOK : SortedOK tasks (cpmSorted tasks) := topologicalSort_sortedOK tasks hid hdep
  intro z hz
  apply initNodes_isSome
  · exact hz
  · intro y hy
    have hyids := hsOK.2.1 y hy
    rw [buildTaskMap_eq tasks hid, jmGet_mapPair tasks (fun t => t.id) (fun t => t) y]
    rcases Option.isSome_iff_exists.mp
      ((find?_isSome_iff_mem_ids tasks y).mpr hyids) with ⟨t, ht⟩
    rw [ht]
    rfl

theorem cpm_fwd_horder (tasks : List CPMInput) (hid : (idsOf tasks).Nodup)
    (hdep : ∀ t ∈ tasks, t.dependencies.Nodup) :
    ∀ (l₁ : List String) (z : String) (l₂ : List String),
      cpmSorted tasks = l₁ ++ z :: l₂ →
      ∀ d ∈ (jmGet (buildPredecessors tasks) z).getD [], d ∉ z :: l₂ := by
  have hsOK : SortedOK tasks (cpmSorted tasks) := topologicalSort_sortedOK tasks hid hdep
  intro l₁ z l₂ hsp d hd
  rw [getD_buildPredecessors tasks z hid] at hd
  have hdl := (hsOK.2.2 l₁ z l₂ hsp d hd).2
  have hnd2 := hsp ▸ hsOK.1
  rw [List.nodup_append] at hnd2
  exact hnd2.2.2 hdl

theorem cpmNodes1_predF (tasks : List CPMInput) (hid : (idsOf tasks).Nodup)
    (hdep : ∀ t ∈ tasks, t.dependencies.Nodup) :
    ∀ (x s : String) (nx ns : CPMNode),
      jmGet (cpmNodes1 tasks) x = some nx → jmGet (cpmNodes1 tasks) s = some ns →
      s ∈ (jmGet (buildSuccessors tasks) x).getD [] → nx.ef ≤ ns.es := by
  have hsOK : SortedOK tasks (cpmSorted tasks) := topologicalSort_sortedOK tasks hid hdep
  intro x s nx ns hnx hns hsSucc
  rcases cpm_succ_pred tasks hid hdep x s hsSucc with ⟨_, hxdep⟩
  have hssorted : s ∈ cpmSorted tasks := by
    by_contra hc
    rw [cpmNodes1_none tasks s hc] at hns
    cases hns
  rcases List.append_of_mem hssorted with ⟨l₁, l₂, hsplit⟩
  rcases forward_pass_spec (buildPredecessors tasks) (cpmSorted tasks) (cpmNodes0 tasks)
      hsOK.1 (cpmNodes0_isSome tasks hid hdep) (cpm_fwd_horder tasks hid hdep)
      l₁ s l₂ hsplit with ⟨n', hn', hineq⟩
  have hns' : jmGet (cpmNodes1 tasks) s = some n' := hn'
  rw [hns] at hns'
  cases Option.some.inj hns'
  apply hineq x
  · rw [getD_buildPredecessors tasks s hid]
    exact hxdep
  · exact hnx

theorem cpmNodes2_spec (tasks : List CPMInput) (hid : (idsOf tasks).Nodup)
    (hdep : ∀ t ∈ tasks, t.dependencies.Nodup) :
    ∀ x ∈ cpmSorted tasks,
      ∃ n, jmGet (cpmNodes2 tasks) x = some n ∧
        n.ls = n.lf - nodeEffDur n ∧ n.ef ≤ n.lf := by
  have hsOK : SortedOK tasks (cpmSorted tasks) := topologicalSort_sortedOK tasks hid hdep
  intro x hx
  have hout := backward_pass_go (buildSuccessors tasks) ((cpmPD tasks).getD 0)
    (cpmNodes1 tasks) (cpmNodes1_efrel tasks) (cpmPD_ge tasks)
    (cpmNodes1_predF tasks hid hdep)
    (cpmSorted tasks).reverse [] (cpmNodes1 tasks)
    (List.nodup_reverse.mpr hsOK.1)
    (by intro z _ hz; simp at hz)
    (by
      intro z hz
      have hz2 : z ∈ cpmSorted tasks := List.mem_reverse.mp hz
      rcases Option.isSome_iff_exists.mp
        (fwd_fold_isSome (buildPredecessors tasks) (cpmSorted tasks) (cpmNodes0 tasks) z
          (cpmNodes0_isSome tasks hid hdep z hz2)) with ⟨n, hn⟩
      exact ⟨n, hn⟩)
    (by
      intro y n' hn'
      exact ⟨n', hn', rfl, rfl, rfl⟩)
    (by intro z hz; simp at hz)
    (by
      intro p z q hsplit s hsSucc hsKey
      have hsplit2 : cpmSorted tasks = q.reverse ++ z :: p.reverse :=
        reverse_split (cpmSorted tasks) p q z hsplit
      rcases hsKey with ⟨ns1, hns1⟩
      have hskeys : s ∈ cpmSorted tasks := by
        by_contra hc
        rw [cpmNodes1_none tasks s hc] at hns1
        cases hns1
      rcases cpm_succ_pred tasks hid hdep z s hsSucc with ⟨_, hzdep⟩
      have hsp := mem_suffix_of_dep tasks (cpmSorted tasks) hsOK q.reverse z p.reverse
        hsplit2 s hskeys hzdep
      simp only [List.nil_append]
      rw [← List.reverse_reverse p]
      exact List.mem_reverse.mpr hsp)
    x (Or.inr (List.mem_reverse.mpr hx))
  exact hout

/-- The float of every scheduled node is non-negative, assuming only the
data-model well-formedness of ids and dependency lists. -/
theorem calculateCPM_float_nonneg (tasks : List CPMInput)
    (hid : (idsOf tasks).Nodup) (hdep : ∀ t ∈ tasks, t.dependencies.Nodup) :
    ∀ n ∈ (calculateCPM tasks).nodes, 0 ≤ n.float := by
  intro n hn
  by_cases htne : tasks = []
  · subst htne
    simp [calculateCPM] at hn
  · rw [calculateCPM_eq tasks htne] at hn
    simp only at hn
    rcases List.mem_filterMap.mp hn with ⟨x, hx, hget⟩
    rw [jmGet_cpmNodes3 tasks x] at hget
    rcases Option.map_eq_some'.mp hget with ⟨n₂, hn₂, hn₂eq⟩
    rcases cpmNodes2_spec tasks hid hdep x hx with ⟨n₂', hn₂', hrel1, hrel2⟩
    have heq : n₂ = n₂' := by
      rw [hn₂] at hn₂'
      exact Option.some.inj hn₂'
    subst heq
    have hef : n₂.ef = n₂.es + nodeEffDur n₂ := by
      rcases bwd_preserves (buildSuccessors tasks) ((cpmPD tasks).getD 0)
          ((cpmSorted tasks).reverse) (cpmNodes1 tasks) x n₂ hn₂ with
        ⟨n₁, hn₁, hes, hef', _, hd⟩
      rw [hes, hef', hd]
      exact cpmNodes1_efrel tasks x n₁ hn₁
    subst hn₂eq
    show 0 ≤ n₂.ls - n₂.es
    omega

theorem bwd_fold_isSome (succ : JMap (List String)) (pd : Int) :
    ∀ (l : List String) (m : JMap CPMNode) (x : String),
      (jmGet m x).isSome → (jmGet (l.foldl (backwardStep succ pd) m) x).isSome := by
  intro l
  induction l with
  | nil => intro m x h; exact h
  | cons y l ih =>
      intro m x h
      simp only [List.foldl_cons]
      apply ih
      cases hy : jmGet m y with
      | none => rw [bwd_step_none succ pd m y hy]; exact h
      | some node =>
          by_cases hxy : y = x
          · subst hxy
            rw [bwd_step_self succ pd m y node hy]
            rfl
          · unfold backwardStep
            rw [hy, jmGet_set_ne m y x _ hxy]
            exact h

theorem initNodes_id (tasks : List CPMInput) (hid : (idsOf tasks).Nodup) :
    ∀ (x : String) (n : CPMNode), jmGet (cpmNodes0 tasks) x = some n → n.id = x := by
  have hgen : ∀ (l : List String) (acc : JMap CPMNode),
      (∀ x n, jmGet acc x = some n → n.id = x) →
      ∀ x n, jmGet (l.foldl (fun m id =>
        match jmGet (buildTaskMap tasks) id with
        | some task => jmSet m id (initRec task)
        | none => m) acc) x = some n → n.id = x := by
    intro l
    induction l with
    | nil => intro acc hacc x n h; exact hacc x n h
    | cons y l ih =>
        intro acc hacc x n h
        simp only [List.foldl_cons] at h
        apply ih _ ?_ x n h
        intro z nz hz
        cases hy : jmGet (buildTaskMap tasks) y with
        | none => rw [hy] at hz; exact hacc z nz hz
        | some task =>
            rw [hy] at hz
            by_cases hzy : y = z
            · subst hzy
              rw [jmGet_set_self] at hz
              cases hz
              have : task.id = y := by
                rw [buildTaskMap_eq tasks hid,
                  jmGet_mapPair tasks (fun t => t.id) (fun t => t) y] at hy
                cases hfind : tasks.find? (fun t => t.id == y) with
                | none => rw [hfind] at hy; cases hy
                | some u =>
                    rw [hfind] at hy
                    have := (find?_some_spec tasks y u hfind).2
                    cases hy
                    exact this
              exact this
            · rw [jmGet_set_ne acc y z _ hzy] at hz
              exact hacc z nz hz
  intro x n h
  exact hgen (cpmSorted tasks) [] (by intro x n h; cases h) x n h

theorem fwd_fold_id (preds : JMap (List String)) :
    ∀ (l : List String) (m : JMap CPMNode),
      (∀ x n, jmGet m x = some n → n.id = x) →
      ∀ x n, jmGet (l.foldl (forwardStep preds) m) x = some n → n.id = x := by
  intro l
  induction l with
  | nil => intro m hm x n h; exact hm x n h
  | cons y l ih =>
      intro m hm x n h
      simp only [List.foldl_cons] at h
      apply ih _ ?_ x n h
      intro z nz hz
      cases hy : jmGet m y with
      | none =>
          rw [fwd_step_none preds m y hy] at hz
          exact hm z nz hz
      | some node =>
          by_cases hzy : y = z
          · subst hzy
            rw [fwd_step_self preds m y node hy] at hz
            cases hz
            exact hm y node hy
          · rw [fwd_step_other preds m y z hzy] at hz
            exact hm z nz hz

theorem cpmNodes3_id (tasks : List CPMInput) (hid : (idsOf tasks).Nodup) :
    ∀ (x : String) (n : CPMNode), jmGet (cpmNodes3 tasks) x = some n → n.id = x := by
  intro x n h
  rw [jmGet_cpmNodes3 tasks x] at h
  rcases Option.map_eq_some'.mp h with ⟨n₂, hn₂, hn₂eq⟩
  rcases bwd_preserves _ _ _ _ x n₂ hn₂ with ⟨n₁, hn₁, _, _, hids, _⟩
  have hn₁id : n₁.id = x :=
    fwd_fold_id (buildPredecessors tasks) (cpmSorted tasks) (cpmNodes0 tasks)
      (initNodes_id tasks hid) x n₁ hn₁
  subst hn₂eq
  show n₂.id = x
  rw [hids, hn₁id]

theorem filterMap_map_proj {α β : Type} (f : α → Option β) (g : β → α) :
    ∀ l : List α, (∀ x ∈ l, ∃ n, f x = some n ∧ g n = x) →
      (l.filterMap f).map g = l := by
  intro l
  induction l with
  | nil => intro _; rfl
  | cons y l ih =>
      intro h
      rcases h y (List.mem_cons_self _ _) with ⟨n, hn, hg⟩
      simp only [List.filterMap_cons, hn, List.map_cons, hg]
      rw [ih (fun z hz => h z (List.mem_cons_of_mem _ hz))]

theorem cpmNodes3_isSome (tasks : List CPMInput) (hid : (idsOf tasks).Nodup)
    (hdep : ∀ t ∈ tasks, t.dependencies.Nodup) :
    ∀ x ∈ cpmSorted tasks, ∃ n, jmGet (cpmNodes3 tasks) x = some n ∧ n.id = x := by
  intro x hx
  have h1 : (jmGet (cpmNodes2 tasks) x).isSome := by
    apply bwd_fold_isSome
    apply fwd_fold_isSome
    exact cpmNodes0_isSome tasks hid hdep x hx
  rcases Option.isSome_iff_exists.mp h1 with ⟨n₂, hn₂⟩
  refine ⟨setFloat n₂, ?_, ?_⟩
  · rw [jmGet_cpmNodes3 tasks x, hn₂]
    rfl
  · apply cpmNodes3_id tasks hid
    rw [jmGet_cpmNodes3 tasks x, hn₂]
    rfl

theorem calculateCPM_nodes_ids (tasks : List CPMInput) (hid : (idsOf tasks).Nodup)
    (hdep : ∀ t ∈ tasks, t.dependencies.Nodup) (htne : ¬(tasks = [])) :
    (calculateCPM tasks).nodes.map (fun n => n.id) = cpmSorted tasks := by
  rw [calculateCPM_eq tasks htne]
  simp only
  exact filterMap_map_proj (fun id => jmGet (cpmNodes3 tasks) id) (fun n => n.id)
    (cpmSorted tasks) (cpmNodes3_isSome tasks hid hdep)

theorem buildPredecessors_congr :
    ∀ (tasks tasks' : List CPMInput),
      tasks.map (fun t => (t.id, t.dependencies)) =
        tasks'.map (fun t => (t.id, t.dependencies)) →
      ∀ acc : JMap (List String),
        tasks.foldl (fun m t => jmSet m t.id t.dependencies) acc =
          tasks'.foldl (fun m t => jmSet m t.id t.dependencies) acc := by
  intro tasks
  induction tasks with
  | nil =>
      intro tasks' h acc
      cases tasks' with
      | nil => rfl
      | cons u l' => simp at h
  | cons t l ih =>
      intro tasks' h acc
      cases tasks' with
      | nil => simp at h
      | cons u l' =>
          simp only [List.map_cons, List.cons.injEq, Prod.mk.injEq] at h
          simp only [List.foldl_cons, h.1.1, h.1.2]
          exact ih l' h.2 _

theorem succSeed_congr :
    ∀ (tasks tasks' : List CPMInput),
      tasks.map (fun t => (t.id, t.dependencies)) =
        tasks'.map (fun t => (t.id, t.dependencies)) →
      ∀ acc : JMap (List String),
        tasks.foldl (fun m t => jmSet m t.id ([] : List String)) acc =
          tasks'.foldl (fun m t => jmSet m t.id ([] : List String)) acc := by
  intro tasks
  induction tasks with
  | nil =>
      intro tasks' h acc
      cases tasks' with
      | nil => rfl
      | cons u l' => simp at h
  | cons t l ih =>
      intro tasks' h acc
      cases tasks' with
      | nil => simp at h
      | cons u l' =>
          simp only [List.map_cons, List.cons.injEq, Prod.mk.injEq] at h
          simp only [List.foldl_cons, h.1.1]
          exact ih l' h.2 _

theorem addSuccEdges_congr (m : JMap (List String)) (t t' : CPMInput)
    (hid : t.id = t'.id) (hdeps : t.dependencies = t'.dependencies) :
    addSuccEdges m t = addSuccEdges m t' := by
  unfold addSuccEdges
  rw [hdeps, hid]

theorem succPhase_congr :
    ∀ (tasks tasks' : List CPMInput),
      tasks.map (fun t => (t.id, t.dependencies)) =
        tasks'.map (fun t => (t.id, t.dependencies)) →
      ∀ acc : JMap (List String),
        tasks.foldl addSuccEdges acc = tasks'.foldl addSuccEdges acc := by
  intro tasks
  induction tasks with
  | nil =>
      intro tasks' h acc
      cases tasks' with
      | nil => rfl
      | cons u l' => simp at h
  | cons t l ih =>
      intro tasks' h acc
      cases tasks' with
      | nil => simp at h
      | cons u l' =>
          simp only [List.map_cons, List.cons.injEq, Prod.mk.injEq] at h
          simp only [List.foldl_cons]
          rw [addSuccEdges_congr acc t u h.1.1 h.1.2]
          exact ih l' h.2 _

theorem buildSuccessors_congr (tasks tasks' : List CPMInput)
    (h : tasks.map (fun t => (t.id, t.dependencies)) =
      tasks'.map (fun t => (t.id, t.dependencies))) :
    buildSuccessors tasks = buildSuccessors tasks' := by
  unfold buildSuccessors
  rw [succSeed_congr tasks tasks' h, succPhase_congr tasks tasks' h]

theorem buildInDegree_congr :
    ∀ (tasks tasks' : List CPMInput) (preds : JMap (List String)),
      tasks.map (fun t => (t.id, t.dependencies)) =
        tasks'.map (fun t => (t.id, t.dependencies)) →
      ∀ acc : JMap Nat,
        tasks.foldl (fun m t => jmSet m t.id ((jmGet preds t.id).getD []).length) acc =
          tasks'.foldl (fun m t => jmSet m t.id ((jmGet preds t.id).getD []).length) acc := by
  intro tasks
  induction tasks with
  | nil =>
      intro tasks' preds h acc
      cases tasks' with
      | nil => rfl
      | cons u l' => simp at h
  | cons t l ih =>
      intro tasks' preds h acc
      cases tasks' with
      | nil => simp at h
      | cons u l' =>
          simp only [List.map_cons, List.cons.injEq, Prod.mk.injEq] at h
          simp only [List.foldl_cons, h.1.1]
          exact ih l' preds h.2 _

theorem cpmSorted_congr (tasks tasks' : List CPMInput)
    (h : tasks.map (fun t => (t.id, t.dependencies)) =
      tasks'.map (fun t => (t.id, t.dependencies))) :
    cpmSorted tasks = cpmSorted tasks' := by
  have hlen : tasks.length = tasks'.length := by
    have := congrArg List.length h
    simpa using this
  have hpreds : buildPredecessors tasks = buildPredecessors tasks' := by
    unfold buildPredecessors
    exact buildPredecessors_congr tasks tasks' h []
  unfold cpmSorted topologicalSort
  rw [buildSuccessors_congr tasks tasks' h, hlen, hpreds]
  unfold buildInDegree
  rw [buildInDegree_congr tasks tasks' (buildPredecessors tasks') h []]

/-- Claim C7: a 2-node dependency cycle (`A` ↔ `B`) fed together with three
unrelated acyclic tasks yields a schedule covering exactly the three acyclic
tasks, with a finite (`some`) `projectDuration`, for every choice of the
remaining task fields. -/
theorem c7_cycle_tolerance (dA dB d1 d2 d3 pA pB p1 p2 p3 : Int)
    (sA sB s1 s2 s3 : String) :
    ((calculateCPM (cycleWithThree dA dB d1 d2 d3 pA pB p1 p2 p3 sA sB s1 s2 s3)).nodes.map
        (fun n => n.id) = ["T1", "T2", "T3"]) ∧
    ∃ v, (calculateCPM
        (cycleWithThree dA dB d1 d2 d3 pA pB p1 p2 p3 sA sB s1 s2 s3)).projectDuration =
      some v := by
  have hid : (idsOf (cycleWithThree dA dB d1 d2 d3 pA pB p1 p2 p3 sA sB s1 s2 s3)).Nodup := by
    rw [show idsOf (cycleWithThree dA dB d1 d2 d3 pA pB p1 p2 p3 sA sB s1 s2 s3) =
      ["A", "B", "T1", "T2", "T3"] from rfl]
    decide
  have hdep : ∀ t ∈ cycleWithThree dA dB d1 d2 d3 pA pB p1 p2 p3 sA sB s1 s2 s3,
      t.dependencies.Nodup := by
    intro t ht
    simp only [cycleWithThree, mkTask, List.mem_cons, List.not_mem_nil, or_false] at ht
    rcases ht with h | h | h | h | h <;> subst h <;>
      first
        | exact (by decide : (["B"] : List String).Nodup)
        | exact (by decide : (["A"] : List String).Nodup)
        | exact (by decide : ([] : List String).Nodup)
  have htne : ¬(cycleWithThree dA dB d1 d2 d3 pA pB p1 p2 p3 sA sB s1 s2 s3 = []) := by
    intro hc
    simp [cycleWithThree, mkTask] at hc
  have hproj : (cycleWithThree dA dB d1 d2 d3 pA pB p1 p2 p3 sA sB s1 s2 s3).map
      (fun t => (t.id, t.dependencies)) =
      (cycleWithThree 0 0 0 0 0 0 0 0 0 0 "" "" "" "" "").map
        (fun t => (t.id, t.dependencies)) := rfl
  have hsorted : cpmSorted (cycleWithThree dA dB d1 d2 d3 pA pB p1 p2 p3 sA sB s1 s2 s3) =
      ["T1", "T2", "T3"] := by
    rw [cpmSorted_congr _ _ hproj]
    decide
  constructor
  · rw [calculateCPM_nodes_ids _ hid hdep htne, hsorted]
  · have hkey : (jmGet (cpmNodes1 (cycleWithThree dA dB d1 d2 d3 pA pB p1 p2 p3 sA sB s1 s2 s3))
        "T1").isSome :=
      fwd_fold_isSome _ _ _ "T1"
        (cpmNodes0_isSome _ hid hdep "T1" (by rw [hsorted]; simp))
    have hpd : (calculateCPM (cycleWithThree dA dB d1 d2 d3 pA pB p1 p2 p3
        sA sB s1 s2 s3)).projectDuration =
        cpmPD (cycleWithThree dA dB d1 d2 d3 pA pB p1 p2 p3 sA sB s1 s2 s3) := by
      rw [calculateCPM_eq _ htne]
    rw [hpd]
    cases hm : cpmNodes1 (cycleWithThree dA dB d1 d2 d3 pA pB p1 p2 p3 sA sB s1 s2 s3) with
    | nil =>
        rw [hm] at hkey
        simp [jmGet] at hkey
    | cons p rest =>
        unfold cpmPD
        rw [hm]
        exact ⟨_, rfl⟩

/-- Claim C9 (amended): a task whose dependency list names an id outside the
task set keeps a positive in-degree forever, so it is excluded from the
schedule entirely (like a cycle member) — it is not scheduled as if the
dependency were absent. -/
theorem c9_amended (tasks : List CPMInput) (hid : (idsOf tasks).Nodup)
    (hdep : ∀ t ∈ tasks, t.dependencies.Nodup) :
    ∀ t ∈ tasks, (∃ d ∈ t.dependencies, d ∉ idsOf tasks) →
      t.id ∉ (calculateCPM tasks).nodes.map (fun n => n.id) := by
  intro t ht hd hmem
  rcases hd with ⟨d, hd, hdnot⟩
  have htne : ¬(tasks = []) := by
    intro hc
    subst hc
    simp at ht
  rw [calculateCPM_nodes_ids tasks hid hdep htne] at hmem
  have hsOK := topologicalSort_sortedOK tasks hid hdep
  rcases List.append_of_mem hmem with ⟨l₁, l₂, hsplit⟩
  have hdi := (hsOK.2.2 l₁ t.id l₂ hsplit d
    (by rw [depsOfId_of_mem tasks t hid ht]; exact hd)).1
  exact hdnot hdi

theorem jmGet_buildTaskMap (tasks : List CPMInput) (hid : (idsOf tasks).Nodup)
    (y : String) (hy : y ∈ idsOf tasks) :
    jmGet (buildTaskMap tasks) y = some (taskOf tasks y) := by
  rw [buildTaskMap_eq tasks hid, jmGet_mapPair tasks (fun t => t.id) (fun t => t) y]
  rcases Option.isSome_iff_exists.mp
    ((find?_isSome_iff_mem_ids tasks y).mpr hy) with ⟨t, ht⟩
  unfold taskOf
  rw [ht]
  rfl

theorem foldl_congr_on {α β : Type} (l : List β) (f g : α → β → α)
    (h : ∀ b ∈ l, ∀ a, f a b = g a b) : ∀ a, l.foldl f a = l.foldl g a := by
  induction l with
  | nil => intro a; rfl
  | cons b l ih =>
      intro a
      simp only [List.foldl_cons]
      rw [h b (List.mem_cons_self _ _) a]
      exact ih (fun c hc a => h c (List.mem_cons_of_mem _ hc) a) _

theorem initNodes_eq (tasks : List CPMInput) (hid : (idsOf tasks).Nodup)
    (hdep : ∀ t ∈ tasks, t.dependencies.Nodup) :
    cpmNodes0 tasks =
      (cpmSorted tasks).map (fun y => (y, initRec (taskOf tasks y))) := by
  have hsOK := topologicalSort_sortedOK tasks hid hdep
  unfold cpmNodes0 initNodes
  rw [foldl_congr_on (cpmSorted tasks) _
    (fun m y => jmSet m y (initRec (taskOf tasks y))) ?_ []]
  · have := foldl_set_fresh (cpmSorted tasks) (fun y => y)
      (fun y => initRec (taskOf tasks y)) [] (by simpa using hsOK.1) (by simp)
    simpa using this
  · intro y hy a
    rw [jmGet_buildTaskMap tasks hid y (hsOK.2.1 y hy)]

theorem jmGet_mapForm (l : List String) (f : String → CPMNode) (x : String) :
    jmGet (l.map (fun y => (y, f y))) x = if x ∈ l then some (f x) else none := by
  induction l with
  | nil => simp [jmGet]
  | cons y ys ih =>
      by_cases h : y = x
      · subst h
        simp [jmGet]
      · simp only [List.map_cons, jmGet, if_neg h, ih, List.mem_cons]
        have : ¬(x = y) := fun he => h he.symm
        simp [this]

theorem jmSet_mapForm (l : List String) (hnd : l.Nodup) (f : String → CPMNode)
    (x : String) (hx : x ∈ l) (v : CPMNode) :
    jmSet (l.map (fun y => (y, f y))) x v =
      l.map (fun y => (y, if y = x then v else f y)) := by
  induction l with
  | nil => simp at hx
  | cons y ys ih =>
      rw [List.nodup_cons] at hnd
      by_cases h : y = x
      · subst h
        have hmap : ys.map (fun z => (z, if z = y then v else f z)) =
            ys.map (fun z => (z, f z)) := by
          apply List.map_congr_left
          intro z hz
          have hne : ¬(z = y) := fun he => hnd.1 (he ▸ hz)
          simp [hne]
        simp [jmSet, hmap]
      · rcases List.mem_cons.mp hx with he | hm
        · exact absurd he.symm h
        · simp only [List.map_cons, jmSet, if_neg h, if_neg h, ih hnd.2 hm]

theorem fold_mapForm (sorted : List String) (hnd : sorted.Nodup)
    (step : JMap CPMNode → String → JMap CPMNode)
    (hstep : ∀ m x, step m x = m ∨ ((jmGet m x).isSome ∧ ∃ v, step m x = jmSet m x v)) :
    ∀ (l : List String) (f : String → CPMNode),
      ∃ g : String → CPMNode,
        l.foldl step (sorted.map (fun y => (y, f y))) =
          sorted.map (fun y => (y, g y)) := by
  intro l
  induction l with
  | nil => intro f; exact ⟨f, rfl⟩
  | cons x l ih =>
      intro f
      rcases hstep (sorted.map (fun y => (y, f y))) x with heq | ⟨hsome, v, heq⟩
      · simp only [List.foldl_cons, heq]
        exact ih f
      · have hxs : x ∈ sorted := by
          by_contra hc
          rw [jmGet_mapForm sorted f x, if_neg hc] at hsome
          simp at hsome
        simp only [List.foldl_cons, heq, jmSet_mapForm sorted hnd f x hxs v]
        exact ih (fun y => if y = x then v else f y)

theorem fwd_hstep (preds : JMap (List String)) :
    ∀ (m : JMap CPMNode) (x : String),
      forwardStep preds m x = m ∨
        ((jmGet m x).isSome ∧ ∃ v, forwardStep preds m x = jmSet m x v) := by
  intro m x
  cases h : jmGet m x with
  | none => exact Or.inl (fwd_step_none preds m x h)
  | some node =>
      refine Or.inr ⟨by simp [h],
        { node with es := fwdES preds m x,
                    ef := fwdES preds m x + nodeEffDur node }, ?_⟩
      unfold forwardStep
      rw [h]

theorem bwd_hstep (succ : JMap (List String)) (pd : Int) :
    ∀ (m : JMap CPMNode) (x : String),
      backwardStep succ pd m x = m ∨
        ((jmGet m x).isSome ∧ ∃ v, backwardStep succ pd m x = jmSet m x v) := by
  intro m x
  cases h : jmGet m x with
  | none => exact Or.inl (bwd_step_none succ pd m x h)
  | some node =>
      refine Or.inr ⟨by simp [h],
        { node with lf := bwdLF succ pd m x,
                    ls := bwdLF succ pd m x - nodeEffDur node }, ?_⟩
      unfold backwardStep
      rw [h]

theorem cpmNodes3_mapForm (tasks : List CPMInput) (hid : (idsOf tasks).Nodup)
    (hdep : ∀ t ∈ tasks, t.dependencies.Nodup) :
    ∃ g : String → CPMNode,
      cpmNodes3 tasks = (cpmSorted tasks).map (fun y => (y, g y)) := by
  have hsOK := topologicalSort_sortedOK tasks hid hdep
  rcases fold_mapForm (cpmSorted tasks) hsOK.1 (forwardStep (buildPredecessors tasks))
      (fwd_hstep (buildPredecessors tasks)) (cpmSorted tasks)
      (fun y => initRec (taskOf tasks y)) with ⟨g₁, hg₁⟩
  have hn1 : cpmNodes1 tasks = (cpmSorted tasks).map (fun y => (y, g₁ y)) := by
    unfold cpmNodes1
    rw [initNodes_eq tasks hid hdep]
    exact hg₁
  rcases fold_mapForm (cpmSorted tasks) hsOK.1
      (backwardStep (buildSuccessors tasks) ((cpmPD tasks).getD 0))
      (bwd_hstep (buildSuccessors tasks) ((cpmPD tasks).getD 0))
      (cpmSorted tasks).reverse g₁ with ⟨g₂, hg₂⟩
  refine ⟨fun y => setFloat (g₂ y), ?_⟩
  unfold cpmNodes3 cpmNodes2
  rw [hn1, hg₂, List.map_map]
  rfl

theorem filter_orderedInsert (key : String → Int) (c : Int) (x : String) :
    ∀ l : List String,
      (List.orderedInsert (fun a b => key a ≤ key b) x l).filter
          (fun z => key z == c) =
        if key x == c then x :: l.filter (fun z => key z == c)
        else l.filter (fun z => key z == c) := by
  intro l
  induction l with
  | nil =>
      simp only [List.orderedInsert, List.filter]
      by_cases hc : key x == c
      · simp [hc]
      · simp [hc]
  | cons y ys ih =>
      simp only [List.orderedInsert]
      by_cases hle : key x ≤ key y
      · rw [if_pos hle]
        simp only [List.filter]
        by_cases hc : key x == c
        · simp [hc]
        · simp [hc]
      · rw [if_neg hle]
        simp only [List.filter_cons, ih]
        by_cases hc : key x == c
        · have hyc : ¬(key y == c) := by
            have h1 : key y < key x := lt_of_not_le hle
            have h2 : key x = c := by simpa using hc
            intro hyc'
            have h3 : key y = c := by simpa using hyc'
            omega
          simp [hc, hyc]
        · simp [hc]

theorem filter_insertionSort (key : String → Int) (c : Int) :
    ∀ l : List String,
      (List.insertionSort (fun a b => key a ≤ key b) l).filter (fun z => key z == c) =
        l.filter (fun z => key z == c) := by
  intro l
  induction l with
  | nil => rfl
  | cons y ys ih =>
      simp only [List.insertionSort, filter_orderedInsert, List.filter_cons]
      by_cases hc : key y == c
      · simp [hc, ih]
      · simp [hc, ih]

theorem find?_map_key (g : String → CPMNode) :
    ∀ (l : List String), l.Nodup → (∀ z ∈ l, (g z).id = z) →
      ∀ y ∈ l, (l.map g).find? (fun n => n.id == y) = some (g y) := by
  intro l
  induction l with
  | nil => intro _ _ y hy; simp at hy
  | cons z zs ih =>
      intro hnd hkey y hy
      rw [List.nodup_cons] at hnd
      simp only [List.map_cons, List.find?_cons]
      by_cases hzy : z = y
      · subst hzy
        have : ((g z).id == z) = true := by
          simp [hkey z (List.mem_cons_self _ _)]
        rw [this]
      · rcases List.mem_cons.mp hy with he | hm
        · exact absurd he.symm hzy
        · have : ((g z).id == y) = false := by
            simp [hkey z (List.mem_cons_self _ _), hzy]
          rw [this]
          exact ih hnd.2 (fun w hw => hkey w (List.mem_cons_of_mem _ hw)) y hm

theorem filterMap_eq_map_of_forall {α β : Type} (f : α → Option β) (g : α → β) :
    ∀ l : List α, (∀ x ∈ l, f x = some (g x)) → l.filterMap f = l.map g := by
  intro l
  induction l with
  | nil => intro _; rfl
  | cons y l ih =>
      intro h
      simp only [List.filterMap_cons, h y (List.mem_cons_self _ _), List.map_cons]
      rw [ih (fun z hz => h z (List.mem_cons_of_mem _ hz))]

/-- Claim C3 (amended): `criticalPath` contains exactly the critical node
ids, in ascending `ES` order, with ties broken by the order of the result's
`nodes` list (the topological processing order) — not the original input
order. -/
theorem c3_amended (tasks : List CPMInput) (hid : (idsOf tasks).Nodup)
    (hdep : ∀ t ∈ tasks, t.dependencies.Nodup) :
    (calculateCPM tasks).criticalPath.Perm
        (((calculateCPM tasks).nodes.filter (fun n => n.isCritical)).map (fun n => n.id)) ∧
    (calculateCPM tasks).criticalPath.Pairwise
        (fun a b => esOf (calculateCPM tasks) a ≤ esOf (calculateCPM tasks) b) ∧
    ∀ c : Int,
      (calculateCPM tasks).criticalPath.filter
          (fun id => esOf (calculateCPM tasks) id == c) =
        (((calculateCPM tasks).nodes.filter (fun n => n.isCritical)).map
          (fun n => n.id)).filter (fun id => esOf (calculateCPM tasks) id == c) := by
  by_cases htne : tasks = []
  · subst htne
    refine ⟨?_, ?_, ?_⟩ <;> simp [calculateCPM]
  · have hsOK := topologicalSort_sortedOK tasks hid hdep
    rcases cpmNodes3_mapForm tasks hid hdep with ⟨g, hg3⟩
    have hgid : ∀ z ∈ cpmSorted tasks, (g z).id = z := by
      intro z hz
      apply cpmNodes3_id tasks hid z
      rw [hg3, jmGet_mapForm, if_pos hz]
    have hnodes : (calculateCPM tasks).nodes = (cpmSorted tasks).map g := by
      rw [calculateCPM_eq tasks htne]
      simp only
      apply filterMap_eq_map_of_forall
      intro y hy
      rw [hg3, jmGet_mapForm, if_pos hy]
    have hcritIds : ((cpmNodes3 tasks).filter (fun p => p.2.isCritical)).map
        (fun p => p.1) = (cpmSorted tasks).filter (fun y => (g y).isCritical) := by
      rw [hg3, List.filter_map, List.map_map]
      have : ((fun p : String × CPMNode => p.1) ∘ fun y => (y, g y)) = fun y => y := rfl
      rw [this, List.map_id']
      exact List.filter_congr (fun x _ => rfl)
    have hcrit : (((calculateCPM tasks).nodes.filter (fun n => n.isCritical)).map
        (fun n => n.id)) = (cpmSorted tasks).filter (fun y => (g y).isCritical) := by
      rw [hnodes, List.filter_map, List.map_map]
      have : ∀ y ∈ (cpmSorted tasks).filter
          ((fun n : CPMNode => n.isCritical) ∘ g), ((fun n : CPMNode => n.id) ∘ g) y = y := by
        intro y hy
        exact hgid y (List.mem_of_mem_filter hy)
      rw [List.map_congr_left this, List.map_id']
      exact List.filter_congr (fun x _ => rfl)
    have hcp : (calculateCPM tasks).criticalPath =
        List.insertionSort
          (fun a b => esKey (cpmNodes3 tasks) a ≤ esKey (cpmNodes3 tasks) b)
          (((cpmNodes3 tasks).filter (fun p => p.2.isCritical)).map (fun p => p.1)) := by
      rw [calculateCPM_eq tasks htne]
    have hesOf : ∀ y ∈ cpmSorted tasks,
        esOf (calculateCPM tasks) y = esKey (cpmNodes3 tasks) y := by
      intro y hy
      unfold esOf esKey
      rw [hnodes, find?_map_key g (cpmSorted tasks) hsOK.1 hgid y hy,
        hg3, jmGet_mapForm, if_pos hy]
    have hmemS : ∀ x ∈ (calculateCPM tasks).criticalPath, x ∈ cpmSorted tasks := by
      intro x hx
      rw [hcp] at hx
      have := (List.perm_insertionSort _ _).mem_iff.mp hx
      rw [hcritIds] at this
      exact List.mem_of_mem_filter this
    refine ⟨?_, ?_, ?_⟩
    · rw [hcp, hcrit, ← hcritIds]
      exact List.perm_insertionSort _ _
    · haveI hT : IsTotal String
          (fun a b => esKey (cpmNodes3 tasks) a ≤ esKey (cpmNodes3 tasks) b) :=
        ⟨fun a b => le_total _ _⟩
      haveI hTr : IsTrans String
          (fun a b => esKey (cpmNodes3 tasks) a ≤ esKey (cpmNodes3 tasks) b) :=
        ⟨fun a b c hab hbc => le_trans hab hbc⟩
      have hsorted := List.sorted_insertionSort
        (fun a b => esKey (cpmNodes3 tasks) a ≤ esKey (cpmNodes3 tasks) b)
        (((cpmNodes3 tasks).filter (fun p => p.2.isCritical)).map (fun p => p.1))
      rw [← hcp] at hsorted
      apply List.Pairwise.imp_of_mem ?_ hsorted
      intro a b ha hb hle
      rw [hesOf a (hmemS a ha), hesOf b (hmemS b hb)]
      exact hle
    · intro c
      have hfc : ∀ (l : List String), (∀ x ∈ l, x ∈ cpmSorted tasks) →
          l.filter (fun id => esOf (calculateCPM tasks) id == c) =
            l.filter (fun id => esKey (cpmNodes3 tasks) id == c) := by
        intro l hl
        apply List.filter_congr
        intro x hx
        rw [hesOf x (hl x hx)]
      rw [hfc _ hmemS, hcp, filter_insertionSort, hcritIds, ← hcrit,
        hfc _ ?_]
      intro x hx
      rw [hcrit] at hx
      exact List.mem_of_mem_filter hx

/-- Claim C1: the degenerate-case rule is violated by the code. On an input
whose every task lies on a cycle, `calculateCPM` returns
`projectDuration = none` (the JS value `-Infinity`, the max of an empty
collection), not `0` as on the genuinely empty input. -/
theorem c1_code_bug :
    calculateCPM exCycleOnly =
      { nodes := [], criticalPath := [], projectDuration := none } ∧
    calculateCPM ([] : List CPMInput) =
      { nodes := [], criticalPath := [], projectDuration := some 0 } ∧
    (none : Option Int) ≠ some 0 := by
  decide

/-- Claim C2 (amended): in the second scenario, `effectiveDuration(B) = 0`,
`EF(B) = 2` and `projectDuration = 3` hold, but `B.isCritical = false`
(B has float 1), contrary to the claim. -/
theorem c2_amended :
    effectiveDuration "completed" 3 40 = 0 ∧
    (calculateCPM exCompletedB).projectDuration = some 3 ∧
    (calculateCPM exCompletedB).nodes.map
        (fun n => (n.id, n.ef, n.float, n.isCritical)) =
      [("A", 2, 0, true), ("B", 2, 1, false), ("C", 3, 0, true)] := by
  decide

/-- Counterexample to the original claim C2: node B of the second scenario
is not critical in the computed result. -/
theorem c2_counterexample :
    (calculateCPM exCompletedB).nodes.map (fun n => (n.id, n.isCritical)) =
      [("A", true), ("B", false), ("C", true)] ∧
    ¬(∀ n ∈ (calculateCPM exCompletedB).nodes,
        n.id = "B" → n.isCritical = true) := by
  decide

/-- Counterexample to the original claim C3: on a two-task input listed as
[b, a] with equal ES, the code returns criticalPath = ["a", "b"] (the
topological processing order), while the claimed input-order tie-break
would give ["b", "a"]. -/
theorem c3_counterexample :
    (calculateCPM exTie).nodes.map (fun n => (n.id, n.es, n.isCritical)) =
      [("a", 0, true), ("b", 0, true)] ∧
    (calculateCPM exTie).criticalPath = ["a", "b"] ∧
    criticalPathSpecOrder exTie = ["b", "a"] ∧
    exTie.map (fun t => t.id) = ["b", "a"] := by
  decide

/-- Witness for C3: the amended statement instantiated at the tie-break
example, with both `Nodup` hypotheses discharged concretely. -/
theorem c3_witness :
    (idsOf exTie).Nodup ∧
    (calculateCPM exTie).criticalPath.Perm
      (((calculateCPM exTie).nodes.filter (fun n => n.isCritical)).map
        (fun n => n.id)) :=
  ⟨by decide, (c3_amended exTie (by decide) (by decide)).1⟩

/-- Claim C5: for every well-formed input (unique ids and dependency lists
per the data model, nonnegative durations, progress in 0–100), every node
in the result of `calculateCPM` has `float ≥ 0`. -/
theorem c5_nonneg_float (tasks : List CPMInput)
    (hid : (idsOf tasks).Nodup)
    (hdep : ∀ t ∈ tasks, t.dependencies.Nodup)
    (hdur : ∀ t ∈ tasks, 0 ≤ t.duration)
    (hprog : ∀ t ∈ tasks, 0 ≤ t.progress ∧ t.progress ≤ 100) :
    ∀ n ∈ (calculateCPM tasks).nodes, 0 ≤ n.float :=
  calculateCPM_float_nonneg tasks hid hdep

/-- Witness for C5: the float-nonnegativity statement instantiated at the
completed-B scenario, all hypotheses discharged concretely. -/
theorem c5_witness :
    (idsOf exCompletedB).Nodup ∧
    ∀ n ∈ (calculateCPM exCompletedB).nodes, 0 ≤ n.float :=
  ⟨by decide, c5_nonneg_float exCompletedB (by decide) (by decide)
    (by decide) (by decide)⟩

/-- Counterexample to the original claim C9: task B with dangling dependency
`"ghost"` is dropped from the schedule, while B with that dependency removed
is scheduled — so the dangling dependency is not treated as contributing
`EF = 0`. -/
theorem c9_counterexample :
    (calculateCPM exDangling).nodes.map (fun n => n.id) = ["A"] ∧
    (calculateCPM exDanglingRemoved).nodes.map (fun n => n.id) = ["A", "B"] ∧
    (["A"] : List String) ≠ ["A", "B"] := by
  decide

/-- Witness for C9: the amended exclusion statement instantiated at the
dangling-dependency example. -/
theorem c9_witness :
    (idsOf exDangling).Nodup ∧
    ∀ t ∈ exDangling, (∃ d ∈ t.dependencies, d ∉ idsOf exDangling) →
      t.id ∉ (calculateCPM exDangling).nodes.map (fun n => n.id) :=
  ⟨by decide, c9_amended exDangling (by decide) (by decide)⟩

def jmRel {α : Type} (R : α → α → Prop) (m' m : JMap α) : Prop :=
  List.Forall₂ (fun p' p => p'.1 = p.1 ∧ R p'.2 p.2) m' m

theorem jmRel_get {α : Type} (R : α → α → Prop) {m' m : JMap α}
    (hm : jmRel R m' m) : ∀ x : String,
    (jmGet m' x = none ∧ jmGet m x = none) ∨
      ∃ v' v, jmGet m' x = some v' ∧ jmGet m x = some v ∧ R v' v := by
  unfold jmRel at hm
  induction hm with
  | nil => intro x; left; exact ⟨rfl, rfl⟩
  | @cons a b l₁ l₂ hp hl ih =>
      intro x
      obtain ⟨k₁, w₁⟩ := a
      obtain ⟨k₂, w₂⟩ := b
      obtain ⟨hk, hw⟩ := hp
      simp only at hk
      subst hk
      by_cases h : k₁ = x
      · right; exact ⟨w₁, w₂, by simp [jmGet, h], by simp [jmGet, h], hw⟩
      · rcases ih x with h0 | ⟨v', v, h1, h2, h3⟩
        · left; exact ⟨by simp [jmGet, h, h0.1], by simp [jmGet, h, h0.2]⟩
        · right; exact ⟨v', v, by simp [jmGet, h, h1], by simp [jmGet, h, h2], h3⟩

theorem jmRel_set {α : Type} (R : α → α → Prop) :
    ∀ {m' m : JMap α}, jmRel R m' m → ∀ (x : String) {v' v : α}, R v' v →
      jmRel R (jmSet m' x v') (jmSet m x v) := by
  intro m' m hm
  unfold jmRel at hm ⊢
  induction hm with
  | nil =>
      intro x v' v hv
      exact List.Forall₂.cons ⟨rfl, hv⟩ List.Forall₂.nil
  | @cons a b l₁ l₂ hp hl ih =>
      intro x v' v hv
      obtain ⟨k₁, w₁⟩ := a
      obtain ⟨k₂, w₂⟩ := b
      obtain ⟨hk, hw⟩ := hp
      simp only at hk
      subst hk
      by_cases h : k₁ = x
      · simp only [jmSet, if_pos h]
        exact List.Forall₂.cons ⟨rfl, hv⟩ hl
      · simp only [jmSet, if_neg h]
        exact List.Forall₂.cons ⟨rfl, hw⟩ (ih x hv)

theorem foldl_rel {α β : Type} (P : α → α → Prop) (f g : α → β → α) :
    ∀ (l : List β) (a' a : α), P a' a →
      (∀ b ∈ l, ∀ x' x, P x' x → P (f x' b) (g x b)) →
      P (l.foldl f a') (l.foldl g a) := by
  intro l
  induction l with
  | nil => intro a' a ha _; exact ha
  | cons b l ih =>
      intro a' a ha hstep
      exact ih _ _ (hstep b (List.mem_cons_self _ _) a' a ha)
        (fun c hc => hstep c (List.mem_cons_of_mem _ hc))

theorem foldl_rel₂ {α β : Type} (P : α → α → Prop) (R : β → β → Prop)
    (f : α → β → α) :
    ∀ {l' l : List β}, List.Forall₂ R l' l → ∀ (a' a : α), P a' a →
      (∀ x' x, R x' x → ∀ b' b, P b' b → P (f b' x') (f b x)) →
      P (l'.foldl f a') (l.foldl f a) := by
  intro l' l h
  induction h with
  | nil => intro a' a ha _; exact ha
  | cons hx _ ih =>
      intro a' a ha hstep
      exact ih _ _ (hstep _ _ hx a' a ha) hstep

theorem forall₂_map_of_rel {α β : Type} (K : α → α → Prop) (R : β → β → Prop)
    (f : α → β) (hf : ∀ p' p, K p' p → R (f p') (f p)) :
    ∀ {l' l : List α}, List.Forall₂ K l' l →
      List.Forall₂ R (l'.map f) (l.map f) := by
  intro l' l h
  induction h with
  | nil => exact List.Forall₂.nil
  | cons hx _ ih => exact List.Forall₂.cons (hf _ _ hx) ih

theorem forall₂_map_self {α β : Type} (R : β → β → Prop) (f g : α → β) :
    ∀ l : List α, (∀ x ∈ l, R (f x) (g x)) →
      List.Forall₂ R (l.map f) (l.map g) := by
  intro l
  induction l with
  | nil => intro _; exact List.Forall₂.nil
  | cons x l ih =>
      intro h
      exact List.Forall₂.cons (h x (List.mem_cons_self _ _))
        (ih (fun z hz => h z (List.mem_cons_of_mem _ hz)))

theorem forall₂_refl_of {α : Type} (R : α → α → Prop) (hR : ∀ a, R a a) :
    ∀ l : List α, List.Forall₂ R l l := by
  intro l
  induction l with
  | nil => exact List.Forall₂.nil
  | cons x l ih => exact List.Forall₂.cons (hR x) ih

theorem forall₂_set {α : Type} (R : α → α → Prop) (hR : ∀ a, R a a) :
    ∀ (l : List α) (i : Nat) (a' : α),
      (∀ hi : i < l.length, R a' (l.get ⟨i, hi⟩)) →
      List.Forall₂ R (l.set i a') l := by
  intro l
  induction l with
  | nil => intro i a' _; exact List.Forall₂.nil
  | cons x xs ih =>
      intro i a' h
      cases i with
      | zero =>
          exact List.Forall₂.cons (h (by simp)) (forall₂_refl_of R hR xs)
      | succ n =>
          exact List.Forall₂.cons (hR x)
            (ih n a' (fun hn => h (Nat.succ_lt_succ hn)))

theorem foldl_max_mono :
    ∀ {l' l : List Int}, List.Forall₂ (fun a b => a ≤ b) l' l →
      ∀ a' a : Int, a' ≤ a → l'.foldl max a' ≤ l.foldl max a := by
  intro l' l h
  induction h with
  | nil => intro a' a ha; exact ha
  | cons hab _ ih => intro a' a ha; exact ih _ _ (max_le_max ha hab)

theorem jsMaxList_mono {l' l : List Int}
    (h : List.Forall₂ (fun a b => a ≤ b) l' l) :
    optIntLE (jsMaxList l') (jsMaxList l) := by
  cases h with
  | nil => exact trivial
  | cons hab hrest => exact foldl_max_mono hrest _ _ hab

theorem jsMaxList_getD_mono {l' l : List Int}
    (h : List.Forall₂ (fun a b => a ≤ b) l' l) :
    (jsMaxList l').getD 0 ≤ (jsMaxList l).getD 0 := by
  cases h with
  | nil => exact le_refl 0
  | cons hab hrest => exact foldl_max_mono hrest _ _ hab

theorem ceilDiv100_nonneg {a : Int} (ha : 0 ≤ a) : 0 ≤ ceilDiv100 a := by
  unfold ceilDiv100
  have h1 : (-a).ediv 100 ≤ (0 : Int).ediv 100 :=
    Int.ediv_le_ediv (by norm_num) (by omega)
  rw [show ((0 : Int).ediv 100) = 0 from rfl] at h1
  omega

def RtC6 (t' t : CPMInput) : Prop :=
  t'.id = t.id ∧ t'.dependencies = t.dependencies ∧
    effectiveDuration t'.status t'.duration t'.progress ≤
      effectiveDuration t.status t.duration t.progress

def RnC6 (n' n : CPMNode) : Prop :=
  n'.ef ≤ n.ef ∧ nodeEffDur n' ≤ nodeEffDur n

theorem forall₂_proj_eq :
    ∀ {tasks' tasks : List CPMInput}, List.Forall₂ RtC6 tasks' tasks →
      tasks'.map (fun t => (t.id, t.dependencies)) =
        tasks.map (fun t => (t.id, t.dependencies)) := by
  intro tasks' tasks h
  induction h with
  | nil => rfl
  | cons hx _ ih =>
      simp only [List.map_cons, ih, hx.1, hx.2.1]

theorem fwdES_mono (preds : JMap (List String)) {m' m : JMap CPMNode}
    (hm : jmRel RnC6 m' m) (id : String) :
    fwdES preds m' id ≤ fwdES preds m id := by
  simp only [fwdES]
  by_cases hps : (jmGet preds id).getD [] = []
  · rw [if_pos hps, if_pos hps]
  · rw [if_neg hps, if_neg hps]
    apply jsMaxList_getD_mono
    apply forall₂_map_self
    intro pId _
    rcases jmRel_get RnC6 hm pId with ⟨h1, h2⟩ | ⟨v', v, h1, h2, h3⟩
    · rw [h1, h2]
    · rw [h1, h2]; exact h3.1

theorem forwardStep_rel (preds : JMap (List String)) {m' m : JMap CPMNode}
    (hm : jmRel RnC6 m' m) (id : String) :
    jmRel RnC6 (forwardStep preds m' id) (forwardStep preds m id) := by
  rcases jmRel_get RnC6 hm id with ⟨h1, h2⟩ | ⟨n', n, h1, h2, hR⟩
  · unfold forwardStep
    rw [h1, h2]
    exact hm
  · unfold forwardStep
    rw [h1, h2]
    apply jmRel_set RnC6 hm id
    exact ⟨add_le_add (fwdES_mono preds hm id) hR.2, hR.2⟩

theorem buildTaskMap_rel {tasks' tasks : List CPMInput}
    (h : List.Forall₂ RtC6 tasks' tasks) :
    jmRel RtC6 (buildTaskMap tasks') (buildTaskMap tasks) := by
  unfold buildTaskMap
  apply foldl_rel₂ (jmRel RtC6) RtC6 _ h [] [] List.Forall₂.nil
  intro x' x hx b' b hb
  rw [hx.1]
  exact jmRel_set RtC6 hb x.id hx

theorem initNodes_rel {tm' tm : JMap CPMInput} (hm : jmRel RtC6 tm' tm)
    (S : List String) : jmRel RnC6 (initNodes tm' S) (initNodes tm S) := by
  unfold initNodes
  apply foldl_rel (jmRel RnC6) _ _ S [] [] List.Forall₂.nil
  intro b _ x' x hx
  rcases jmRel_get RtC6 hm b with ⟨h1, h2⟩ | ⟨t', t, h1, h2, hR⟩
  · simp only [h1, h2]
    exact hx
  · simp only [h1, h2]
    apply jmRel_set RnC6 hx b
    exact ⟨le_refl 0, hR.2.2⟩

theorem cpmNodes1_rel {tasks' tasks : List CPMInput}
    (hF : List.Forall₂ RtC6 tasks' tasks) :
    jmRel RnC6 (cpmNodes1 tasks') (cpmNodes1 tasks) := by
  have hproj := forall₂_proj_eq hF
  have hS : cpmSorted tasks' = cpmSorted tasks := cpmSorted_congr _ _ hproj
  have hP : buildPredecessors tasks' = buildPredecessors tasks := by
    unfold buildPredecessors
    exact buildPredecessors_congr _ _ hproj []
  have h0 : jmRel RnC6 (cpmNodes0 tasks') (cpmNodes0 tasks) := by
    unfold cpmNodes0
    rw [hS]
    exact initNodes_rel (buildTaskMap_rel hF) (cpmSorted tasks)
  unfold cpmNodes1
  rw [hS, hP]
  apply foldl_rel (jmRel RnC6) _ _ (cpmSorted tasks) _ _ h0
  intro b _ x' x hx
  exact forwardStep_rel (buildPredecessors tasks) hx b

theorem cpmPD_rel {tasks' tasks : List CPMInput}
    (hF : List.Forall₂ RtC6 tasks' tasks) :
    optIntLE (cpmPD tasks') (cpmPD tasks) := by
  unfold cpmPD
  apply jsMaxList_mono
  exact forall₂_map_of_rel _ _ _ (fun p' p hp => hp.2.1) (cpmNodes1_rel hF)

/-- Claim C6: for every well-formed input (nonnegative durations, progress
at most 100) and every position `i`, changing that task's status to
"completed" while holding all other fields fixed never increases the
`projectDuration` of `calculateCPM` (with `none` modeling `-Infinity`), and
makes the effective duration of a "completed" task 0 regardless of its
progress. -/
theorem c6_completed_neutrality (tasks tasks' : List CPMInput) (i : Nat)
    (hi : i < tasks.length)
    (hset : tasks' = tasks.set i { tasks.get ⟨i, hi⟩ with status := "completed" })
    (hdur : ∀ t ∈ tasks, 0 ≤ t.duration)
    (hprog : ∀ t ∈ tasks, t.progress ≤ 100) :
    optIntLE (calculateCPM tasks').projectDuration
      (calculateCPM tasks).projectDuration ∧
    ∀ p : Int,
      effectiveDuration "completed" (tasks.get ⟨i, hi⟩).duration p = 0 := by
  subst hset
  have hmem : tasks.get ⟨i, hi⟩ ∈ tasks := List.get_mem tasks i hi
  have hF : List.Forall₂ RtC6
      (tasks.set i { tasks.get ⟨i, hi⟩ with status := "completed" }) tasks := by
    apply forall₂_set RtC6 (fun a => ⟨rfl, rfl, le_refl _⟩)
    intro hi'
    refine ⟨rfl, rfl, ?_⟩
    show effectiveDuration "completed" (tasks.get ⟨i, hi⟩).duration
        (tasks.get ⟨i, hi⟩).progress ≤
      effectiveDuration (tasks.get ⟨i, hi'⟩).status (tasks.get ⟨i, hi'⟩).duration
        (tasks.get ⟨i, hi'⟩).progress
    unfold effectiveDuration
    rw [if_pos rfl]
    by_cases hst : (tasks.get ⟨i, hi'⟩).status = "completed"
    · rw [if_pos hst]
    · rw [if_neg hst]
      apply ceilDiv100_nonneg
      have h1 := hdur _ hmem
      have h2 := hprog _ hmem
      exact mul_nonneg h1 (by omega)
  have hne : tasks ≠ [] := by
    intro h
    subst h
    simp at hi
  have hne' : tasks.set i { tasks.get ⟨i, hi⟩ with status := "completed" } ≠ [] := by
    intro h
    apply hne
    have := congrArg List.length h
    simp only [List.length_set, List.length_nil] at this
    exact List.length_eq_zero.mp this
  have hpd : (calculateCPM tasks).projectDuration = cpmPD tasks := by
    rw [calculateCPM_eq tasks hne]
  have hpd' : (calculateCPM
      (tasks.set i { tasks.get ⟨i, hi⟩ with status := "completed" })).projectDuration =
      cpmPD (tasks.set i { tasks.get ⟨i, hi⟩ with status := "completed" }) := by
    rw [calculateCPM_eq _ hne']
  refine ⟨?_, ?_⟩
  · rw [hpd, hpd']
    exact cpmPD_rel hF
  · intro p
    simp [effectiveDuration]

/-- Witness for C6: completed-task neutrality instantiated at the second
scenario with its task A (index 0) marked completed. -/
theorem c6_witness :
    (∀ t ∈ exCompletedB, 0 ≤ t.duration) ∧
    optIntLE
      (calculateCPM
        [mkTask "A" 2 [] "completed" 0,
         mkTask "B" 3 ["A"] "completed" 40,
         mkTask "C" 1 ["A"] "not_started" 0]).projectDuration
      (calculateCPM exCompletedB).projectDuration :=
  ⟨by decide,
    (c6_completed_neutrality exCompletedB
      [mkTask "A" 2 [] "completed" 0,
       mkTask "B" 3 ["A"] "completed" 40,
       mkTask "C" 1 ["A"] "not_started" 0] 0 (by decide) (by decide)
      (by decide) (by decide)).1⟩

theorem analyzeStep_eq (m : JMap DevLoad) (node : CPMNode) :
    analyzeStep m node =
      match node.assigneeId with
      | none => m
      | some aid =>
          if aid = "" then m else jmSet m aid (devUpd (jmGet m aid) node) := by
  cases hna : node.assigneeId with
  | none => simp [analyzeStep, hna]
  | some aid => by_cases ha : aid = "" <;> simp [analyzeStep, hna, ha, devUpd]

theorem jmSet_keys_sub {α : Type} (m : JMap α) (k : String) (v : α) :
    ∀ x ∈ (jmSet m k v).map Prod.fst, x ∈ m.map Prod.fst ∨ x = k := by
  induction m with
  | nil => intro x hx; right; simpa [jmSet] using hx
  | cons p rest ih =>
      intro x hx
      by_cases hp : p.1 = k
      · simp only [jmSet, if_pos hp, List.map_cons, List.mem_cons] at hx
        rcases hx with hx | hx
        · right; exact hx
        · left; simp [hx]
      · simp only [jmSet, if_neg hp, List.map_cons, List.mem_cons] at hx
        rcases hx with hx | hx
        · left; simp [hx]
        · rcases ih x hx with h | h
          · left; simp [h]
          · right; exact h

theorem jmSet_keys_nodup {α : Type} (m : JMap α) (k : String) (v : α)
    (h : (m.map Prod.fst).Nodup) : ((jmSet m k v).map Prod.fst).Nodup := by
  induction m with
  | nil => simp [jmSet]
  | cons p rest ih =>
      by_cases hp : p.1 = k
      · simp only [jmSet, if_pos hp, List.map_cons]
        simp only [List.map_cons, List.nodup_cons] at h
        rw [← hp]
        exact List.nodup_cons.mpr ⟨h.1, h.2⟩
      · simp only [jmSet, if_neg hp, List.map_cons, List.nodup_cons]
        simp only [List.map_cons, List.nodup_cons] at h
        constructor
        · intro hmem
          rcases jmSet_keys_sub rest k v p.1 hmem with h1 | h1
          · exact h.1 h1
          · exact hp h1
        · exact ih h.2

theorem jmGet_of_mem_nodup {α : Type} (m : JMap α) (k : String) (v : α)
    (hnd : (m.map Prod.fst).Nodup) (hmem : (k, v) ∈ m) : jmGet m k = some v := by
  induction m with
  | nil => simp at hmem
  | cons p rest ih =>
      simp only [List.map_cons, List.nodup_cons] at hnd
      rcases List.mem_cons.mp hmem with h | h
      · rw [← h]
        simp [jmGet]
      · have hne : p.1 ≠ k := by
          intro he
          apply hnd.1
          rw [he]
          exact List.mem_map.mpr ⟨(k, v), h, rfl⟩
        simp only [jmGet, if_neg hne]
        exact ih hnd.2 h

theorem analyzeFold_keys_nodup : ∀ (nodes : List CPMNode) (m : JMap DevLoad),
    ((m.map Prod.fst).Nodup) → (((nodes.foldl analyzeStep m).map Prod.fst).Nodup) := by
  intro nodes
  induction nodes with
  | nil => intro m h; exact h
  | cons n ns ih =>
      intro m h
      simp only [List.foldl_cons]
      apply ih
      rw [analyzeStep_eq]
      cases hna : n.assigneeId with
      | none => exact h
      | some aid =>
          by_cases ha : aid = ""
          · simp only [if_pos ha]; exact h
          · simp only [if_neg ha]; exact jmSet_keys_nodup _ _ _ h

theorem analyzeFold_keys_truthy : ∀ (nodes : List CPMNode) (m : JMap DevLoad),
    (∀ x ∈ m.map Prod.fst, x ≠ "") →
    ∀ x ∈ (nodes.foldl analyzeStep m).map Prod.fst, x ≠ "" := by
  intro nodes
  induction nodes with
  | nil => intro m h; exact h
  | cons n ns ih =>
      intro m h
      simp only [List.foldl_cons]
      apply ih
      rw [analyzeStep_eq]
      cases hna : n.assigneeId with
      | none => exact h
      | some aid =>
          by_cases ha : aid = ""
          · simp only [if_pos ha]; exact h
          · simp only [if_neg ha]
            intro x hx
            rcases jmSet_keys_sub m aid (devUpd (jmGet m aid) n) x hx with h1 | h1
            · exact h x h1
            · rw [h1]; exact ha

theorem analyzeFold_get (devId : String) (hdev : devId ≠ "") :
    ∀ (nodes : List CPMNode) (m : JMap DevLoad),
      jmGet (nodes.foldl analyzeStep m) devId =
        (nodes.filter (fun n => n.assigneeId == some devId)).foldl
          (fun acc n => some (devUpd acc n)) (jmGet m devId) := by
  intro nodes
  induction nodes with
  | nil => intro m; rfl
  | cons n ns ih =>
      intro m
      simp only [List.foldl_cons, List.filter_cons]
      rw [analyzeStep_eq]
      cases hna : n.assigneeId with
      | none =>
          have hb : ((none : Option String) == some devId) = false := rfl
          simp only [hb, Bool.false_eq_true, if_false]
          exact ih m
      | some aid =>
          by_cases ha : aid = ""
          · have hb : ((some aid : Option String) == some devId) = false := by
              subst ha
              simp [Ne.symm hdev]
            simp only [if_pos ha, hb, Bool.false_eq_true, if_false]
            exact ih m
          · by_cases hd : aid = devId
            · subst hd
              have hb : ((some aid : Option String) == some aid) = true := by simp
              simp only [if_neg ha, hb, if_true]
              rw [ih, jmGet_set_self]
              simp only [List.foldl_cons]
            · have hb : ((some aid : Option String) == some devId) = false := by
                simp [hd]
              simp only [if_neg ha, hb, Bool.false_eq_true, if_false]
              rw [ih, jmGet_set_ne _ _ _ _ hd]

theorem devFold_some : ∀ (l : List CPMNode) (L : DevLoad),
    l.foldl (fun acc n => some (devUpd acc n)) (some L) =
      some { name := L.name,
             tasks := L.tasks + l.length,
             criticalTasks := L.criticalTasks + l.countP (fun n => n.isCritical),
             totalDuration := L.totalDuration + (l.map (fun n => n.duration)).sum } := by
  intro l
  induction l with
  | nil => intro L; simp
  | cons n ns ih =>
      intro L
      simp only [List.foldl_cons]
      have hstep : devUpd (some L) n =
          { name := L.name, tasks := L.tasks + 1,
            criticalTasks := L.criticalTasks + (if n.isCritical then 1 else 0),
            totalDuration := L.totalDuration + n.duration } := rfl
      rw [hstep, ih]
      simp only [Option.some.injEq, DevLoad.mk.injEq, List.length_cons,
        List.countP_cons, List.map_cons, List.sum_cons]
      refine ⟨trivial, by omega, ?_, by ring⟩
      by_cases hc : n.isCritical <;> simp [hc] <;> omega

theorem devFold_none (l : List CPMNode) (n0 : CPMNode) :
    (n0 :: l).foldl (fun acc n => some (devUpd acc n)) none =
      some { name := nameOrUnknown n0.assigneeName,
             tasks := (n0 :: l).length,
             criticalTasks := (n0 :: l).countP (fun n => n.isCritical),
             totalDuration := ((n0 :: l).map (fun n => n.duration)).sum } := by
  simp only [List.foldl_cons]
  have hstep : devUpd none n0 =
      { name := nameOrUnknown n0.assigneeName, tasks := 1,
        criticalTasks := if n0.isCritical then 1 else 0,
        totalDuration := n0.duration } := by
    simp [devUpd]
  rw [hstep, devFold_some]
  simp only [Option.some.injEq, DevLoad.mk.injEq, List.length_cons,
    List.countP_cons, List.map_cons, List.sum_cons]
  refine ⟨trivial, by omega, ?_, by ring⟩
  by_cases hc : n0.isCritical <;> simp [hc] <;> omega

theorem foldl_append_eq {α β : Type} (f : α → List β) :
    ∀ (l : List α) (acc : List β),
      l.foldl (fun a x => a ++ f x) acc = acc ++ (l.map f).flatten := by
  intro l
  induction l with
  | nil => intro acc; simp
  | cons x xs ih =>
      intro acc
      simp only [List.foldl_cons, List.map_cons, List.flatten_cons]
      rw [ih, List.append_assoc]

/-- Claim C8 (amended): `analyzeResourceAllocation` groups nodes by truthy
`assigneeId`, accumulating per assignee the task count, critical-task count
and the sum of raw input durations, and its recommendations are exactly the
per-assignee threshold messages of `recsFor`, in load order — with two
corrections to the claim: the critical-task message interpolates the
developer id, "name (devId) has N critical tasks...", not "name has N
critical tasks..."; and the 70% threshold is the binary64 comparison
`totalDuration > projectDuration * 0.7` (see `exceeds70`), which can fire
where the exact 70% test does not, e.g. totalDuration 63 at
projectDuration 90. -/
theorem c8_amended (r : CPMResult) :
    (∀ L ∈ (analyzeResourceAllocation r).developerLoad,
      L.developerId ≠ "" ∧
      L.tasks = (r.nodes.filter (fun n => n.assigneeId == some L.developerId)).length ∧
      L.criticalTasks = (r.nodes.filter
        (fun n => n.assigneeId == some L.developerId)).countP (fun n => n.isCritical) ∧
      L.totalDuration = ((r.nodes.filter
        (fun n => n.assigneeId == some L.developerId)).map (fun n => n.duration)).sum) ∧
    (∀ n ∈ r.nodes, jsTruthyStr n.assigneeId →
      ∃ L ∈ (analyzeResourceAllocation r).developerLoad,
        n.assigneeId = some L.developerId) ∧
    (analyzeResourceAllocation r).recommendations =
      ((analyzeResourceAllocation r).developerLoad.map
        (fun L => recsFor r.projectDuration L.developerId
          { name := L.name, tasks := L.tasks, criticalTasks := L.criticalTasks,
            totalDuration := L.totalDuration })).flatten := by
  have hnd : ((r.nodes.foldl analyzeStep []).map Prod.fst).Nodup :=
    analyzeFold_keys_nodup r.nodes [] (by simp)
  have htr : ∀ x ∈ (r.nodes.foldl analyzeStep []).map Prod.fst, x ≠ "" :=
    analyzeFold_keys_truthy r.nodes [] (by simp)
  refine ⟨?_, ?_, ?_⟩
  · intro L hL
    obtain ⟨p, hp, hLp⟩ := List.mem_map.mp hL
    have hkey : p.1 ∈ (r.nodes.foldl analyzeStep []).map Prod.fst :=
      List.mem_map.mpr ⟨p, hp, rfl⟩
    have hne' : p.1 ≠ "" := htr _ hkey
    have hget : jmGet (r.nodes.foldl analyzeStep []) p.1 = some p.2 := by
      obtain ⟨k, v⟩ := p
      exact jmGet_of_mem_nodup _ _ _ hnd hp
    rw [analyzeFold_get p.1 hne' r.nodes [],
      show jmGet ([] : JMap DevLoad) p.1 = none from rfl] at hget
    cases hfil : r.nodes.filter (fun n => n.assigneeId == some p.1) with
    | nil =>
        rw [hfil] at hget
        simp at hget
    | cons n0 rest =>
        rw [hfil, devFold_none] at hget
        have h2 := Option.some.inj hget
        subst hLp
        refine ⟨hne', ?_, ?_, ?_⟩
        · show p.2.tasks =
            (r.nodes.filter (fun n => n.assigneeId == some p.1)).length
          rw [hfil, ← h2]
        · show p.2.criticalTasks = (r.nodes.filter
              (fun n => n.assigneeId == some p.1)).countP (fun n => n.isCritical)
          rw [hfil, ← h2]
        · show p.2.totalDuration = ((r.nodes.filter
              (fun n => n.assigneeId == some p.1)).map (fun n => n.duration)).sum
          rw [hfil, ← h2]
  · intro n hn htru
    cases hna : n.assigneeId with
    | none => rw [hna] at htru; exact absurd htru (by simp [jsTruthyStr])
    | some aid =>
        have hane : aid ≠ "" := by
          rw [hna] at htru
          simp [jsTruthyStr] at htru
          exact htru
        have hmemf : n ∈ r.nodes.filter (fun x => x.assigneeId == some aid) :=
          List.mem_filter.mpr ⟨hn, by simp [hna]⟩
        cases hfil : r.nodes.filter (fun x => x.assigneeId == some aid) with
        | nil => rw [hfil] at hmemf; simp at hmemf
        | cons n0 rest =>
            have hget : jmGet (r.nodes.foldl analyzeStep []) aid =
                some { name := nameOrUnknown n0.assigneeName,
                       tasks := (n0 :: rest).length,
                       criticalTasks := (n0 :: rest).countP (fun x => x.isCritical),
                       totalDuration := ((n0 :: rest).map (fun x => x.duration)).sum } := by
              rw [analyzeFold_get aid hane r.nodes [],
                show jmGet ([] : JMap DevLoad) aid = none from rfl, hfil,
                devFold_none]
            have hmem2 := jmGet_mem _ _ _ hget
            refine ⟨{ developerId := aid, name := nameOrUnknown n0.assigneeName,
                      tasks := (n0 :: rest).length,
                      criticalTasks := (n0 :: rest).countP (fun x => x.isCritical),
                      totalDuration := ((n0 :: rest).map (fun x => x.duration)).sum },
              ?_, ?_⟩
            · exact List.mem_map.mpr ⟨_, hmem2, rfl⟩
            · rfl
  · show (r.nodes.foldl analyzeStep []).foldl
        (fun acc p => acc ++ recsFor r.projectDuration p.1 p.2) [] = _
    rw [foldl_append_eq]
    rw [show (analyzeResourceAllocation r).developerLoad =
      (r.nodes.foldl analyzeStep []).map (fun p =>
        ({ developerId := p.1, name := p.2.name, tasks := p.2.tasks,
           criticalTasks := p.2.criticalTasks,
           totalDuration := p.2.totalDuration } : ResourceLoad)) from rfl]
    rw [List.map_map, List.nil_append]
    rfl

/-- Counterexample to the original claim C8, in both respects: the first
recommendation message interpolates the developer id after the name, and
the claim's template without "(d1)" does not occur; and the program's 70%
threshold is the binary64 `totalDuration > projectDuration * 0.7`, which at
`projectDuration = 90` computes `90 * 0.7 = 62.99999999999999` and so fires
for `totalDuration = 63` although the claim's exact reading
`63 > 0.7 · 90` is false. -/
theorem c8_counterexample :
    (analyzeResourceAllocation exThreeCritical).recommendations =
      ["Alice (d1) has 3 critical tasks. Consider redistributing to reduce risk."] ∧
    "Alice has 3 critical tasks. Consider redistributing to reduce risk." ∉
      (analyzeResourceAllocation exThreeCritical).recommendations ∧
    (analyzeResourceAllocation exThreeCritical).developerLoad =
      [{ developerId := "d1", name := "Alice", tasks := 3, criticalTasks := 3,
         totalDuration := 6 }] ∧
    exceeds70 63 (some 90) = true ∧
    ¬(10 * 63 > 7 * 90) := by
  decide

/-- Witness for C8: the recommendations characterisation instantiated at a
concrete schedule result with three critical tasks on one assignee. -/
theorem c8_witness :
    (analyzeResourceAllocation exThreeCritical).recommendations =
      ((analyzeResourceAllocation exThreeCritical).developerLoad.map
        (fun L => recsFor exThreeCritical.projectDuration L.developerId
          { name := L.name, tasks := L.tasks, criticalTasks := L.criticalTasks,
            totalDuration := L.totalDuration })).flatten :=
  (c8_amended exThreeCritical).2.2

theorem analyzeFold_filter_truthy : ∀ (nodes : List CPMNode) (m : JMap DevLoad),
    (nodes.filter (fun n => jsTruthyStr n.assigneeId)).foldl analyzeStep m =
      nodes.foldl analyzeStep m := by
  intro nodes
  induction nodes with
  | nil => intro m; rfl
  | cons n ns ih =>
      intro m
      simp only [List.filter_cons]
      cases hna : n.assigneeId with
      | none =>
          have hskip : analyzeStep m n = m := by rw [analyzeStep_eq, hna]
          have ht : jsTruthyStr none = false := rfl
          simp only [ht, Bool.false_eq_true, if_false]
          rw [List.foldl_cons, hskip]
          exact ih m
      | some aid =>
          by_cases ha : aid = ""
          · have hskip : analyzeStep m n = m := by
              rw [analyzeStep_eq, hna]
              simp [ha]
            have ht : jsTruthyStr (some aid) = false := by
              rw [ha]
              rfl
            simp only [ht, Bool.false_eq_true, if_false]
            rw [List.foldl_cons, hskip]
            exact ih m
          · have ht : jsTruthyStr (some aid) = true := by
              simp [jsTruthyStr, ha]
            simp only [ht, if_true]
            rw [List.foldl_cons, List.foldl_cons]
            exact ih (analyzeStep m n)

/-- Claim C10: nodes whose `assigneeId` is falsy — absent or the empty
string — are treated as unassigned by `analyzeResourceAllocation`: removing
them changes neither the developer load nor the recommendations, and no
load entry carries an empty developer id. -/
theorem c10_empty_assignee (r : CPMResult) :
    analyzeResourceAllocation
      { r with nodes := r.nodes.filter (fun n => jsTruthyStr n.assigneeId) } =
      analyzeResourceAllocation r ∧
    ∀ L ∈ (analyzeResourceAllocation r).developerLoad, L.developerId ≠ "" := by
  constructor
  · simp only [analyzeResourceAllocation]
    rw [analyzeFold_filter_truthy]
  · intro L hL
    obtain ⟨p, hp, hLp⟩ := List.mem_map.mp hL
    have hkey : p.1 ∈ (r.nodes.foldl analyzeStep []).map Prod.fst :=
      List.mem_map.mpr ⟨p, hp, rfl⟩
    have hne' : p.1 ≠ "" := analyzeFold_keys_truthy r.nodes [] (by simp) _ hkey
    rw [← hLp]
    exact hne'

/-- Witness for C10: dropping the falsy-assignee nodes (here the node with
`assigneeId = some ""`) of a concrete schedule result leaves the analysis
unchanged. -/
theorem c10_witness :
    analyzeResourceAllocation
      { exThreeCritical with
        nodes := exThreeCritical.nodes.filter (fun n => jsTruthyStr n.assigneeId) } =
      analyzeResourceAllocation exThreeCritical :=
  (c10_empty_assignee exThreeCritical).1


theorem fwd_step_otherF (f : String → Int → Int → Int)
    (preds : JMap (List String)) (m : JMap CPMNode) (y x : String)
    (hne : y ≠ x) : jmGet (forwardStepF f preds m y) x = jmGet m x := by
  unfold forwardStepF
  cases h : jmGet m y with
  | none => rfl
  | some node => exact jmGet_set_ne m y x _ hne

theorem fwd_fold_not_memF (f : String → Int → Int → Int)
    (preds : JMap (List String)) :
    ∀ (l : List String) (m : JMap CPMNode) (x : String), x ∉ l →
      jmGet (l.foldl (forwardStepF f preds) m) x = jmGet m x := by
  intro l
  induction l with
  | nil => intro m x _; rfl
  | cons y l ih =>
      intro m x hx
      simp only [List.mem_cons] at hx
      push_neg at hx
      simp only [List.foldl_cons]
      rw [ih _ x hx.2, fwd_step_otherF f preds m y x (Ne.symm hx.1)]

theorem bwd_step_otherF (f : String → Int → Int → Int)
    (succ : JMap (List String)) (pd : Int) (m : JMap CPMNode) (y x : String)
    (hne : y ≠ x) : jmGet (backwardStepF f succ pd m y) x = jmGet m x := by
  unfold backwardStepF
  cases h : jmGet m y with
  | none => rfl
  | some node => exact jmGet_set_ne m y x _ hne

theorem bwd_fold_not_memF (f : String → Int → Int → Int)
    (succ : JMap (List String)) (pd : Int) :
    ∀ (l : List String) (m : JMap CPMNode) (x : String), x ∉ l →
      jmGet (l.foldl (backwardStepF f succ pd) m) x = jmGet m x := by
  intro l
  induction l with
  | nil => intro m x _; rfl
  | cons y l ih =>
      intro m x hx
      simp only [List.mem_cons] at hx
      push_neg at hx
      simp only [List.foldl_cons]
      rw [ih _ x hx.2, bwd_step_otherF f succ pd m y x (Ne.symm hx.1)]

theorem fwd_efrelF (f : String → Int → Int → Int)
    (preds : JMap (List String)) :
    ∀ (l : List String) (m : JMap CPMNode) (x : String), x ∈ l →
      ∀ n, jmGet (l.foldl (forwardStepF f preds) m) x = some n →
        n.ef = n.es + f n.status n.duration n.progress := by
  intro l
  induction l with
  | nil => intro m x hx; simp at hx
  | cons y l ih =>
      intro m x hx n hn
      simp only [List.foldl_cons] at hn
      by_cases hxl : x ∈ l
      · exact ih _ x hxl n hn
      · rcases List.mem_cons.mp hx with he | hm
        · subst he
          rw [fwd_fold_not_memF f preds l _ x hxl] at hn
          unfold forwardStepF at hn
          cases h : jmGet m x with
          | none => rw [h] at hn; rw [h] at hn; exact absurd hn (by simp [h])
          | some node =>
              rw [h] at hn
              simp only [jmGet_set_self] at hn
              cases hn
              rfl
        · exact absurd hm hxl

theorem bwd_lsrelF (f : String → Int → Int → Int)
    (succ : JMap (List String)) (pd : Int) :
    ∀ (l : List String) (m : JMap CPMNode) (x : String), x ∈ l →
      ∀ n, jmGet (l.foldl (backwardStepF f succ pd) m) x = some n →
        n.ls = n.lf - f n.status n.duration n.progress := by
  intro l
  induction l with
  | nil => intro m x hx; simp at hx
  | cons y l ih =>
      intro m x hx n hn
      simp only [List.foldl_cons] at hn
      by_cases hxl : x ∈ l
      · exact ih _ x hxl n hn
      · rcases List.mem_cons.mp hx with he | hm
        · subst he
          rw [bwd_fold_not_memF f succ pd l _ x hxl] at hn
          unfold backwardStepF at hn
          cases h : jmGet m x with
          | none => rw [h] at hn; exact absurd hn (by simp [h])
          | some node =>
              rw [h] at hn
              simp only [jmGet_set_self] at hn
              cases hn
              rfl
        · exact absurd hm hxl

theorem bwd_step_noneF (f : String → Int → Int → Int)
    (succ : JMap (List String)) (pd : Int) (m : JMap CPMNode) (y : String)
    (h : jmGet m y = none) : backwardStepF f succ pd m y = m := by
  unfold backwardStepF
  rw [h]

theorem bwd_step_selfF (f : String → Int → Int → Int)
    (succ : JMap (List String)) (pd : Int) (m : JMap CPMNode) (y : String)
    (node : CPMNode) (h : jmGet m y = some node) :
    jmGet (backwardStepF f succ pd m y) y =
      some { node with
        lf := bwdLF succ pd m y,
        ls := bwdLF succ pd m y - f node.status node.duration node.progress } := by
  unfold backwardStepF
  rw [h]
  exact jmGet_set_self m y _

theorem bwd_preservesF (f : String → Int → Int → Int)
    (succ : JMap (List String)) (pd : Int) :
    ∀ (l : List String) (m : JMap CPMNode) (x : String) (n' : CPMNode),
      jmGet (l.foldl (backwardStepF f succ pd) m) x = some n' →
      ∃ n, jmGet m x = some n ∧ n'.es = n.es ∧ n'.ef = n.ef ∧ n'.id = n.id ∧
        f n'.status n'.duration n'.progress =
          f n.status n.duration n.progress := by
  intro l
  induction l with
  | nil =>
      intro m x n' hn
      exact ⟨n', hn, rfl, rfl, rfl, rfl⟩
  | cons y l ih =>
      intro m x n' hn
      simp only [List.foldl_cons] at hn
      rcases ih _ x n' hn with ⟨n₁, hn₁, h1, h2, h3, h4⟩
      by_cases hxy : y = x
      · subst hxy
        cases h : jmGet m y with
        | none =>
            rw [bwd_step_noneF f succ pd m y h] at hn₁
            rw [h] at hn₁
            exact absurd hn₁ (by simp)
        | some node =>
            rw [bwd_step_selfF f succ pd m y node h] at hn₁
            cases hn₁
            exact ⟨node, rfl, h1, h2, h3, h4⟩
      · rw [bwd_step_otherF f succ pd m y x hxy] at hn₁
        exact ⟨n₁, hn₁, h1, h2, h3, h4⟩

theorem calculateCPMF_eq (f : String → Int → Int → Int)
    (tasks : List CPMInput) (h : ¬(tasks = [])) :
    calculateCPMF f tasks =
      { nodes := (cpmSorted tasks).filterMap (fun id => jmGet (cpmNodes3F f tasks) id),
        criticalPath :=
          List.insertionSort
            (fun a b => esKey (cpmNodes3F f tasks) a ≤ esKey (cpmNodes3F f tasks) b)
            (((cpmNodes3F f tasks).filter (fun p => p.2.isCritical)).map (fun p => p.1)),
        projectDuration := cpmPDF f tasks } := by
  unfold calculateCPMF cpmNodes3F cpmNodes2F cpmPDF cpmNodes1F cpmNodes0 cpmSorted
  rw [if_neg h]

theorem jmGet_cpmNodes3F (f : String → Int → Int → Int)
    (tasks : List CPMInput) (x : String) :
    jmGet (cpmNodes3F f tasks) x = (jmGet (cpmNodes2F f tasks) x).map setFloat := by
  unfold cpmNodes3F
  exact jmGet_mapVal setFloat (cpmNodes2F f tasks) x

theorem calculateCPMF_exact : calculateCPMF effectiveDuration = calculateCPM := by
  funext tasks
  rfl

/-- Claim C4 (amended): for every input and every node in the result, the
four relations hold with the one per-node value both passes use — the
program's evaluation of the effective-duration expression, abstracted as
`f` (so in particular with the bit-accurate binary64 `effectiveDurationFP`):
`EF = ES + f`, `LS = LF - f`, `float = LS - ES`, `isCritical ⇔ float = 0`.
That value is NOT always the claimed exact `⌈duration·(1 - progress/100)⌉`:
binary64 rounding makes it 4 at duration 10, progress 70, where the exact
ceiling is 3. -/
theorem c4_amended (f : String → Int → Int → Int) (tasks : List CPMInput) :
    ∀ n ∈ (calculateCPMF f tasks).nodes,
      n.ef = n.es + f n.status n.duration n.progress ∧
      n.ls = n.lf - f n.status n.duration n.progress ∧
      n.float = n.ls - n.es ∧
      (n.isCritical = true ↔ n.float = 0) := by
  intro n hn
  by_cases htne : tasks = []
  · subst htne
    simp [calculateCPMF] at hn
  · rw [calculateCPMF_eq f tasks htne] at hn
    simp only at hn
    rcases List.mem_filterMap.mp hn with ⟨x, hx, hget⟩
    rw [jmGet_cpmNodes3F f tasks x] at hget
    rcases Option.map_eq_some'.mp hget with ⟨n₂, hn₂, hn₂eq⟩
    have hls : n₂.ls = n₂.lf - f n₂.status n₂.duration n₂.progress := by
      have hxrev : x ∈ (cpmSorted tasks).reverse := List.mem_reverse.mpr hx
      exact bwd_lsrelF f (buildSuccessors tasks) ((cpmPDF f tasks).getD 0)
        ((cpmSorted tasks).reverse) (cpmNodes1F f tasks) x hxrev n₂ hn₂
    have hef : n₂.ef = n₂.es + f n₂.status n₂.duration n₂.progress := by
      rcases bwd_preservesF f (buildSuccessors tasks) ((cpmPDF f tasks).getD 0)
          ((cpmSorted tasks).reverse) (cpmNodes1F f tasks) x n₂ hn₂ with
        ⟨n₁, hn₁, hes, hef', _, hd⟩
      have := fwd_efrelF f (buildPredecessors tasks) (cpmSorted tasks)
        (cpmNodes0 tasks) x hx n₁ hn₁
      rw [hes, hef', hd]
      exact this
    subst hn₂eq
    refine ⟨?_, ?_, ?_, ?_⟩
    · show n₂.ef = n₂.es + _
      exact hef
    · show n₂.ls = n₂.lf - _
      exact hls
    · rfl
    · show decide (n₂.ls - n₂.es = 0) = true ↔ n₂.ls - n₂.es = 0
      simp

/-- Counterexample to the original claim C4: under bit-accurate binary64
arithmetic (`effectiveDurationFP`), an `in_progress` task of duration 10
and progress 70 gets effective duration `Math.ceil(3.0000000000000004) = 4`
— not the exact `⌈10·(1 - 70/100)⌉ = 3` — so its scheduled node has
`EF - ES = 4`, violating the claimed `EF = ES + ⌈duration·(1-progress/100)⌉`. -/
theorem c4_counterexample :
    effectiveDurationFP "in_progress" 10 70 = 4 ∧
    effectiveDuration "in_progress" 10 70 = 3 ∧
    (calculateCPMF effectiveDurationFP
        [mkTask "P" 10 [] "in_progress" 70]).nodes.map (fun n => (n.es, n.ef)) =
      [(0, 4)] ∧
    ¬((4 : Int) = 0 + ceilDiv100 (10 * (100 - 70))) := by
  decide

/-- Witness for C4: the amended relations instantiated with the binary64
effective duration at the concrete node of the divergent one-task input. -/
theorem c4_witness :
    exNodeP ∈ (calculateCPMF effectiveDurationFP
      [mkTask "P" 10 [] "in_progress" 70]).nodes ∧
    (exNodeP.ef = exNodeP.es +
        effectiveDurationFP exNodeP.status exNodeP.duration exNodeP.progress ∧
      exNodeP.ls = exNodeP.lf -
        effectiveDurationFP exNodeP.status exNodeP.duration exNodeP.progress ∧
      exNodeP.float = exNodeP.ls - exNodeP.es ∧
      (exNodeP.isCritical = true ↔ exNodeP.float = 0)) :=
  ⟨by decide,
    c4_amended effectiveDurationFP [mkTask "P" 10 [] "in_progress" 70]
      exNodeP (by decide)⟩
